import Mathlib

/-!
# Binomial heap (`binomial_heap.cpp`): embedding and verification

The C++ program implements a binomial heap (`BinomialTree<T>`, `BinomialHeap<T>`) and
uses it for `HeapSort` on `std::vector<int>`.  This file embeds the program as pure Lean
functions and proves properties of it.

Modelling conventions.

* `T` is instantiated to `int` (as in `HeapSort`) and modelled by `Int`.
* A `Node*` is modelled by the value of the node it points to (`Node`).  This is exact
  whenever no node is reachable from two live trees, which is the case for every heap
  built by `Insert`/`ExtractMin` (nodes are allocated by `new Node` in `Insert`, and the
  root removed by `ExtractMin` is never looked at again).  Where object identity and
  shared nodes matter (what `MergeOtherHeap` leaves in its operand), the method is
  embedded a second time over an explicit memory of node and heap objects (`Memory`).
* `std::vector<std::optional<BinomialTree<T>>>` is `List (Option BinomialTree)`.
* The machine type `int` of `size_`/`rank_` is modelled without overflow (signed overflow
  is undefined in C++; it needs more than `2^31 - 1` stored elements).  `size_` is an
  `Int` (it is decremented), `rank_` is a `Nat` (it only starts at `0`, is incremented, or
  is set to a loop counter).
* Every subscript `v[i]` and every `optional` dereference that the source performs is
  modelled by a *checked* access: the embedding returns `none` if the source would index
  out of range or dereference an empty `optional` (undefined behaviour in C++).
* `throw "Try to extract from empty heap!"` is modelled by `Except.error` carrying that
  string; the heap after the call is returned alongside.
-/

namespace BinomialHeapCpp

/-! ## `BinomialTree<T>::Node` -/

/-- Node of a tree: `T value; std::vector<Node*> children_;`. -/
inductive Node where
  | mk (value : Int) (children_ : List Node)

/-- Field `value` of a node. -/
def Node.value : Node → Int
  | .mk v _ => v

/-- Field `children_` of a node. -/
def Node.children_ : Node → List Node
  | .mk _ cs => cs

/-! ## `BinomialTree<T>` -/

/-- Class `BinomialTree<T>`: `Node* root_; int rank_ = 0;`.  The null state of `root_`
only occurs in the operand consumed by `MergeOtherTree` (`RemoveRoot`), which is never
read again, so `root_` is modelled as always present. -/
structure BinomialTree where
  root_ : Node
  rank_ : Nat := 0

/-- Constructor `BinomialTree(const T& value)`: `root_ = new Node(value)`. -/
def BinomialTree.ofValue (value : Int) : BinomialTree :=
  { root_ := Node.mk value [], rank_ := 0 }

/-- Method `GetSize`: `return 1 << rank_;`. -/
def BinomialTree.GetSize (t : BinomialTree) : Int :=
  ((1 <<< t.rank_ : Nat) : Int)

/-- Method `GetRootValue`: `return root_->value;`. -/
def BinomialTree.GetRootValue (t : BinomialTree) : Int :=
  t.root_.value

/-- Loop of `GetChildrenAsTrees`: for each child pointer, `emplace_back(child_root)` then
`SetRank(rank++)`. -/
def childTreesFrom : Nat → List Node → List BinomialTree
  | _, [] => []
  | rank, child_root :: rest =>
    { root_ := child_root, rank_ := rank } :: childTreesFrom (rank + 1) rest

/-- Method `GetChildrenAsTrees`. -/
def BinomialTree.GetChildrenAsTrees (t : BinomialTree) : List BinomialTree :=
  childTreesFrom 0 t.root_.children_

/-- Method `MergeOtherTree`: `root_->children_.push_back(tree.GetRoot()); ++rank_;`
(the result is the receiver after the call). -/
def BinomialTree.MergeOtherTree (self tree : BinomialTree) : BinomialTree :=
  { root_ := Node.mk self.root_.value (self.root_.children_ ++ [tree.root_]),
    rank_ := self.rank_ + 1 }

/-- Function `MergeBinomialTrees(left, right)`. -/
def MergeBinomialTrees (left right : BinomialTree) : BinomialTree :=
  if left.GetRootValue < right.GetRootValue then
    left.MergeOtherTree right
  else
    right.MergeOtherTree left

/-! ## `BinomialHeap<T>` -/

/-- Class `BinomialHeap<T>`: `int size_ = 0; std::vector<std::optional<BinomialTree<T>>> trees_;`.
The default value is the default constructor `BinomialHeap() = default`. -/
structure BinomialHeap where
  size_ : Int := 0
  trees_ : List (Option BinomialTree) := []

/-- Constructor `BinomialHeap(const BinomialTree<T>& tree)`:
`trees_.push_back(tree); size_ = 1;`. -/
def BinomialHeap.ofTree (tree : BinomialTree) : BinomialHeap :=
  { trees_ := [some tree], size_ := 1 }

/-- Private constructor `BinomialHeap(const std::vector<BinomialTree<T>> trees)`:
push every tree, then `size_ = (1 << trees_.size()) - 1`. -/
def BinomialHeap.ofTrees (trees : List BinomialTree) : BinomialHeap :=
  { trees_ := trees.map some, size_ := ((1 <<< (trees.map some).length : Nat) : Int) - 1 }

/-- A counted loop `for (int i = lo; i < lo + count; ++i) body`, where the body may hit
undefined behaviour (`none`). -/
def forLoop {σ : Type} (body : Nat → σ → Option σ) : Nat → Nat → σ → Option σ
  | 0, _, s => some s
  | count + 1, i, s => (body i s).bind (forLoop body count (i + 1))

/-- Checked vector write `v[i] = x`. -/
def writeSlot (v : List (Option BinomialTree)) (i : Nat) (x : Option BinomialTree) :
    Option (List (Option BinomialTree)) :=
  if i < v.length then some (v.set i x) else none

/-- Local variables of `MergeOtherHeap` that its loops modify. -/
structure MergeState where
  trees_ : List (Option BinomialTree)
  our_trees : List (Option BinomialTree)
  transfer : Option BinomialTree

/-- Body of the first loop of `MergeOtherHeap` (source lines 119-145). -/
def firstLoopBody (other_trees : List (Option BinomialTree)) (i : Nat) (s : MergeState) :
    Option MergeState :=
  match s.our_trees[i]?, other_trees[i]? with
  | some our, some other =>
    match s.transfer with
    | none =>
      match our, other with
      | some a, none =>
        (writeSlot s.trees_ i (some a)).map fun t => { s with trees_ := t }
      | none, some b =>
        (writeSlot s.trees_ i (some b)).map fun t => { s with trees_ := t }
      | some a, some b =>
        (writeSlot s.trees_ i none).map fun t =>
          { s with trees_ := t, transfer := some (MergeBinomialTrees a b) }
      | none, none =>
        (writeSlot s.trees_ i none).map fun t => { s with trees_ := t }
    | some tr =>
      match our, other with
      | some a, none =>
        (writeSlot s.trees_ i none).map fun t =>
          { s with trees_ := t, transfer := some (MergeBinomialTrees tr a) }
      | none, some b =>
        (writeSlot s.trees_ i none).map fun t =>
          { s with trees_ := t, transfer := some (MergeBinomialTrees tr b) }
      | some a, some b =>
        (writeSlot s.trees_ i (some tr)).map fun t =>
          { trees_ := t,
            our_trees := s.our_trees.set i (some (MergeBinomialTrees a b)),
            transfer := some (MergeBinomialTrees a b) }
      | none, none =>
        (writeSlot s.trees_ i (some tr)).map fun t =>
          { s with trees_ := t, transfer := none }
  | _, _ => none

/-- Body of the second loop of `MergeOtherHeap` (source lines 148-159). -/
def secondLoopBody (i : Nat) (s : MergeState) : Option MergeState :=
  match s.our_trees[i]? with
  | some our =>
    match s.transfer with
    | some tr =>
      match our with
      | some a => some { s with transfer := some (MergeBinomialTrees tr a) }
      | none =>
        (writeSlot s.trees_ i (some tr)).map fun t =>
          { s with trees_ := t, transfer := none }
    | none =>
      match our with
      | some a => (writeSlot s.trees_ i (some a)).map fun t => { s with trees_ := t }
      | none => some s
  | none => none

/-- Method `MergeOtherHeap(const BinomialHeap<T>& other)`; the result is the receiver
after the call (`other` is `const` and is not changed). -/
def BinomialHeap.MergeOtherHeap (self other : BinomialHeap) : Option BinomialHeap :=
  if self.trees_.isEmpty then
    some { trees_ := other.trees_, size_ := other.size_ }
  else if other.trees_.isEmpty then
    some self
  else
    let size := self.size_ + other.size_
    let swapped : Bool := decide (other.trees_.length > self.trees_.length)
    let our_trees := if swapped then other.trees_ else self.trees_
    let other_trees := if swapped then self.trees_ else other.trees_
    let s0 : MergeState :=
      { trees_ := List.replicate our_trees.length none, our_trees := our_trees,
        transfer := none }
    (forLoop (firstLoopBody other_trees) other_trees.length 0 s0).bind fun s1 =>
    (forLoop secondLoopBody (our_trees.length - other_trees.length) other_trees.length
      s1).bind fun s2 =>
    match s2.transfer with
    | some tr => some { size_ := size, trees_ := s2.trees_ ++ [some tr] }
    | none => some { size_ := size, trees_ := s2.trees_ }

/-- Method `Insert`: `MergeOtherHeap(BinomialHeap<T>(BinomialTree<T>(value)))`. -/
def BinomialHeap.Insert (self : BinomialHeap) (value : Int) : Option BinomialHeap :=
  self.MergeOtherHeap (BinomialHeap.ofTree (BinomialTree.ofValue value))

/-- Body of the loop of `GetMinIndex`; the state is `(min_index, min_value)`. -/
def minIndexBody (trees_ : List (Option BinomialTree)) (i : Nat) (s : Int × Int) :
    Option (Int × Int) :=
  match trees_[i]? with
  | some none => some s
  | some (some t) =>
    if s.1 = -1 then
      some ((i : Int), t.GetRootValue)
    else if t.GetRootValue < s.2 then
      some ((i : Int), t.GetRootValue)
    else
      some s
  | none => none

/-- Method `GetMinIndex`.  `min_value` is uninitialised in the source until the first
occupied slot is seen and is not read before that; the model starts it at `0`. -/
def BinomialHeap.GetMinIndex (self : BinomialHeap) : Option Int :=
  (forLoop (minIndexBody self.trees_) self.trees_.length 0 ((-1 : Int), (0 : Int))).map
    fun s => s.1

/-- Message thrown by `ExtractMin` on an empty heap. -/
def emptyHeapError : String := "Try to extract from empty heap!"

/-- Method `ExtractMin`.  The result is `none` on undefined behaviour; otherwise it is the
thrown message or the returned value, together with the heap after the call. -/
def BinomialHeap.ExtractMin (self : BinomialHeap) :
    Option (Except String Int × BinomialHeap) :=
  if self.size_ = 0 then
    some (Except.error emptyHeapError, self)
  else
    match self.GetMinIndex with
    | none => none
    | some idx =>
      if idx < 0 then none
      else
        match self.trees_[idx.toNat]? with
        | some (some min_tree) =>
          let min_value := min_tree.GetRootValue
          let child_trees := min_tree.GetChildrenAsTrees
          let new_heap := BinomialHeap.ofTrees child_trees
          let size := self.size_ - min_tree.GetSize
          let trees :=
            if min_tree.GetSize > size then self.trees_.dropLast
            else self.trees_.set idx.toNat none
          match ({ size_ := size, trees_ := trees } : BinomialHeap).MergeOtherHeap new_heap with
          | some h => some (Except.ok min_value, h)
          | none => none
        | _ => none

/-- First loop of `HeapSort`: `heap.Insert(elem)` for every element. -/
def insertAll : List Int → BinomialHeap → Option BinomialHeap
  | [], heap => some heap
  | elem :: rest, heap => (heap.Insert elem).bind (insertAll rest)

/-- Second loop of `HeapSort`: `res.push_back(heap.ExtractMin())`, `count` times.  A
thrown exception leaves `HeapSort`. -/
def extractLoop : Nat → BinomialHeap → List Int → Option (Except String (List Int))
  | 0, _, res => some (Except.ok res)
  | count + 1, heap, res =>
    match heap.ExtractMin with
    | none => none
    | some (Except.error e, _) => some (Except.error e)
    | some (Except.ok v, heap1) => extractLoop count heap1 (res ++ [v])

/-- Function `HeapSort`. -/
def HeapSort (values : List Int) : Option (Except String (List Int)) :=
  match insertAll values {} with
  | none => none
  | some heap => extractLoop values.length heap []

/-! ## Specification vocabulary -/

mutual
/-- Values stored in the tree rooted at a node (root first, then the children in order). -/
def Node.values : Node → List Int
  | .mk v cs => v :: Node.valuesList cs
/-- Values stored in a list of nodes. -/
def Node.valuesList : List Node → List Int
  | [] => []
  | c :: cs => c.values ++ Node.valuesList cs
end

mutual
/-- Binomial shape: a node is the root of a binomial tree of rank `k` when it has exactly
`k` children and its `j`-th child (0-indexed) is the root of a binomial tree of rank `j`. -/
def Node.IsBinomial : Node → Nat → Prop
  | .mk _ cs, k => cs.length = k ∧ Node.IsBinomialList cs 0
/-- Children list whose first element has rank `j`, the next `j + 1`, and so on. -/
def Node.IsBinomialList : List Node → Nat → Prop
  | [], _ => True
  | c :: cs, j => c.IsBinomial j ∧ Node.IsBinomialList cs (j + 1)
end

mutual
/-- Min-heap order: no node has a value greater than the value of one of its children. -/
def Node.HeapOrdered : Node → Prop
  | .mk v cs => Node.HeapOrderedList v cs
/-- Every node of the list has a value at least `v` and is itself heap-ordered. -/
def Node.HeapOrderedList : Int → List Node → Prop
  | _, [] => True
  | v, c :: cs => v ≤ c.value ∧ c.HeapOrdered ∧ Node.HeapOrderedList v cs
end

/-- Values stored in a sequence of slots. -/
def slotValues : List (Option BinomialTree) → List Int
  | [] => []
  | none :: rest => slotValues rest
  | some t :: rest => t.root_.values ++ slotValues rest

/-- Values stored in an optional tree. -/
def optValues : Option BinomialTree → List Int
  | none => []
  | some t => t.root_.values

/-- Values stored in a heap (with multiplicity). -/
def BinomialHeap.values (h : BinomialHeap) : List Int :=
  slotValues h.trees_

/-- Slot `i` of a slot sequence is occupied. -/
def occupied (trees : List (Option BinomialTree)) (i : Nat) : Bool :=
  match trees[i]? with
  | some (some _) => true
  | _ => false

/-- Indices of the occupied slots, in ascending order. -/
def occupiedRanks (trees : List (Option BinomialTree)) : List Nat :=
  (List.range trees.length).filter (occupied trees)

/-- Sum of `2^i` over the occupied slots `i`. -/
def occupiedSum (trees : List (Option BinomialTree)) : Nat :=
  ((occupiedRanks trees).map fun i => 2 ^ i).sum

/-- Sum of `2^(i + j)` over the occupied positions `j` of a slot sequence whose first
slot has index `i` (recursive form of `occupiedSum`). -/
def slotWeight : Nat → List (Option BinomialTree) → Nat
  | _, [] => 0
  | i, none :: rest => slotWeight (i + 1) rest
  | i, some _ :: rest => 2 ^ i + slotWeight (i + 1) rest

/-- Every occupied slot satisfies `P index tree`, the first slot having index `i`. -/
def SlotsAll (P : Nat → BinomialTree → Prop) : Nat → List (Option BinomialTree) → Prop
  | _, [] => True
  | i, none :: rest => SlotsAll P (i + 1) rest
  | i, some t :: rest => P i t ∧ SlotsAll P (i + 1) rest

/-- A tree that may sit in slot `i`: `rank_ = i` and binomial shape of rank `i`. -/
def TreeWF (i : Nat) (t : BinomialTree) : Prop :=
  t.rank_ = i ∧ t.root_.IsBinomial i

/-- A tree whose stored rank is `i` (no condition on its shape). -/
def TreeRanked (i : Nat) (t : BinomialTree) : Prop :=
  t.rank_ = i

/-- A heap-ordered tree (the slot index plays no role). -/
def TreeOrdered (_ : Nat) (t : BinomialTree) : Prop :=
  t.root_.HeapOrdered

/-- The last slot of a non-empty slot sequence is occupied. -/
def LastOccupied : List (Option BinomialTree) → Prop
  | [] => False
  | [x] => x.isSome = true
  | _ :: y :: rest => LastOccupied (y :: rest)

/-- Well-formed heap: each occupied slot `i` holds a binomial tree with `rank_ = i`, and
`size_` is the sum of `2^i` over the occupied slots. -/
def BinomialHeap.WF (h : BinomialHeap) : Prop :=
  SlotsAll TreeWF 0 h.trees_ ∧ h.size_ = (occupiedSum h.trees_ : Int)

/-- Each occupied slot `i` holds a tree whose stored rank is `i`. -/
def BinomialHeap.Ranked (h : BinomialHeap) : Prop :=
  SlotsAll TreeRanked 0 h.trees_

/-- Every tree of the heap is min-heap-ordered. -/
def BinomialHeap.Ordered (h : BinomialHeap) : Prop :=
  SlotsAll TreeOrdered 0 h.trees_

/-- No trailing empty slot: `trees_` is empty or its last slot is occupied. -/
def BinomialHeap.Trimmed (h : BinomialHeap) : Prop :=
  h.trees_ = [] ∨ LastOccupied h.trees_

/-- Heaps reachable from the empty heap by `Insert` and successful `ExtractMin` calls. -/
inductive Reachable : BinomialHeap → Prop
  | empty : Reachable {}
  | insert (h h1 : BinomialHeap) (value : Int) :
      Reachable h → h.Insert value = some h1 → Reachable h1
  | extractMin (h h1 : BinomialHeap) (m : Int) :
      Reachable h → h.ExtractMin = some (Except.ok m, h1) → Reachable h1

/-- Heaps that the public interface of the class can produce from arbitrary trees:
the two public constructors, `MergeOtherHeap`, `Insert` and `ExtractMin`. -/
inductive Constructible : BinomialHeap → Prop
  | default : Constructible {}
  | ofTree (tree : BinomialTree) : Constructible (BinomialHeap.ofTree tree)
  | merge (a b a1 : BinomialHeap) :
      Constructible a → Constructible b → a.MergeOtherHeap b = some a1 → Constructible a1
  | extractMin (h h1 : BinomialHeap) (r : Except String Int) :
      Constructible h → h.ExtractMin = some (r, h1) → Constructible h1

/-- A call made by a client of the heap. -/
inductive Op where
  | insert (value : Int)
  | extractMin

/-- A heap together with the number of `Insert` calls and of successful `ExtractMin`
calls made on it so far. -/
structure Trace where
  heap : BinomialHeap := {}
  inserts : Nat := 0
  extracts : Nat := 0

/-- Run a sequence of calls; an `ExtractMin` that throws is caught by the client and the
run goes on with the heap as the throw left it.  `none` is undefined behaviour. -/
def runOps : List Op → Trace → Option Trace
  | [], s => some s
  | Op.insert value :: ops, s =>
    match s.heap.Insert value with
    | none => none
    | some h => runOps ops { heap := h, inserts := s.inserts + 1, extracts := s.extracts }
  | Op.extractMin :: ops, s =>
    match s.heap.ExtractMin with
    | none => none
    | some (Except.ok _, h) =>
      runOps ops { heap := h, inserts := s.inserts, extracts := s.extracts + 1 }
    | some (Except.error _, h) =>
      runOps ops { heap := h, inserts := s.inserts, extracts := s.extracts }

/-! ## Loop-free description of the carry walk (used in the proofs) -/

/-- One rank of the carry walk: from the two operand slots and the incoming carry to the
result slot and the outgoing carry (the eight branches of source lines 119-145). -/
def carryStep (our other transfer : Option BinomialTree) :
    Option BinomialTree × Option BinomialTree :=
  match transfer with
  | none =>
    match our, other with
    | some a, none => (some a, none)
    | none, some b => (some b, none)
    | some a, some b => (none, some (MergeBinomialTrees a b))
    | none, none => (none, none)
  | some tr =>
    match our, other with
    | some a, none => (none, some (MergeBinomialTrees tr a))
    | none, some b => (none, some (MergeBinomialTrees tr b))
    | some a, some b => (some tr, some (MergeBinomialTrees a b))
    | none, none => (some tr, none)

/-- The second loop followed by the final `push_back`, as a recursion over the slots. -/
def walkRest : List (Option BinomialTree) → Option BinomialTree → List (Option BinomialTree)
  | [], none => []
  | [], some tr => [some tr]
  | o :: os, tr => (carryStep o none tr).1 :: walkRest os (carryStep o none tr).2

/-- Both loops and the final `push_back`, as a recursion over the two slot sequences. -/
def walkPairs : List (Option BinomialTree) → List (Option BinomialTree) →
    Option BinomialTree → List (Option BinomialTree)
  | our, [], tr => walkRest our tr
  | [], t :: ts, tr => (carryStep none t tr).1 :: walkPairs [] ts (carryStep none t tr).2
  | o :: os, t :: ts, tr => (carryStep o t tr).1 :: walkPairs os ts (carryStep o t tr).2

/-- The loop of `GetMinIndex` as a recursion over the slots from index `i` on. -/
def minScan : List (Option BinomialTree) → Nat → Int × Int → Int × Int
  | [], _, s => s
  | none :: rest, i, s => minScan rest (i + 1) s
  | some t :: rest, i, s =>
    minScan rest (i + 1)
      (if s.1 = -1 then ((i : Int), t.GetRootValue)
       else if t.GetRootValue < s.2 then ((i : Int), t.GetRootValue)
       else s)

/-- The part of `MergeOtherHeap` after the second loop, on the slot sequence only. -/
def finishMerge (s : MergeState) : List (Option BinomialTree) :=
  match s.transfer with
  | some tr => s.trees_ ++ [some tr]
  | none => s.trees_

/-- Loop-free description of the heap left in the receiver by `MergeOtherHeap`. -/
def mergeResult (self other : BinomialHeap) : BinomialHeap :=
  if self.trees_.isEmpty then
    { trees_ := other.trees_, size_ := other.size_ }
  else if other.trees_.isEmpty then
    self
  else if other.trees_.length > self.trees_.length then
    { size_ := self.size_ + other.size_, trees_ := walkPairs other.trees_ self.trees_ none }
  else
    { size_ := self.size_ + other.size_, trees_ := walkPairs self.trees_ other.trees_ none }

/-- Invariant of the scan of `GetMinIndex` after the slots `l` have been visited: either
no occupied slot was seen and `min_index` is still `-1`, or `min_index` is the index of an
occupied slot whose root value is `min_value`, the least root value seen. -/
def ScanInv (l : List (Option BinomialTree)) (s : Int × Int) : Prop :=
  (s.1 = -1 ∧ ∀ x ∈ l, x = none) ∨
  (∃ (j : Nat) (t : BinomialTree), s.1 = (j : Int) ∧ l[j]? = some (some t) ∧
    t.GetRootValue = s.2 ∧ ∀ t1, some t1 ∈ l → s.2 ≤ t1.GetRootValue)

/-- Invariant of the heaps built by `Insert` and `ExtractMin`: well-formed, heap-ordered
and without trailing empty slot. -/
def BinomialHeap.Inv (h : BinomialHeap) : Prop :=
  h.WF ∧ h.Ordered ∧ h.Trimmed

/-- The call is an `Insert`. -/
def Op.isInsert : Op → Bool
  | Op.insert _ => true
  | Op.extractMin => false

/-- The heap after `Insert(4); Insert(2)` on the empty heap (used as a test input). -/
def sampleHeap : BinomialHeap :=
  { size_ := 2, trees_ := [none, some { root_ := Node.mk 2 [Node.mk 4 []], rank_ := 1 }] }

/-- A binomial tree of rank 1 holding `2` above `4` (used as a test input). -/
def sampleTree : BinomialTree :=
  { root_ := Node.mk 2 [Node.mk 4 []], rank_ := 1 }

/-- A rank-1 tree holding `1` above `5` (used as a test input). -/
def sampleTreeLeft : BinomialTree :=
  { root_ := Node.mk 1 [Node.mk 5 []], rank_ := 1 }

/-- A rank-1 tree holding `1` above `7` (used as a test input). -/
def sampleTreeRight : BinomialTree :=
  { root_ := Node.mk 1 [Node.mk 7 []], rank_ := 1 }

mutual
/-- All nodes of the tree rooted at a node (the root first). -/
def Node.nodes : Node → List Node
  | .mk v cs => Node.mk v cs :: Node.nodesList cs
/-- All nodes of the trees rooted at the nodes of a list. -/
def Node.nodesList : List Node → List Node
  | [] => []
  | c :: cs => c.nodes ++ Node.nodesList cs
end

/-! ## `MergeOtherHeap` on objects in memory

The definitions above treat trees as values.  What a call leaves in the operand `other`
depends on object identity (`other` may be the receiver itself) and on nodes shared
through pointers, so for that question the method is embedded once more over an explicit
memory: `Node` objects and `BinomialHeap` objects are addressed by their index, a `Node*`
is an `Option Nat` (`none` is `nullptr`), and a dereference of a null or dangling pointer
is undefined behaviour (`none`). -/

/-- A `Node` object: `T value; std::vector<Node*> children_;`. -/
structure NodeCell where
  value : Int
  children_ : List (Option Nat)

/-- A `BinomialTree<T>` object: `Node* root_; int rank_;`. -/
structure TreeObj where
  root_ : Option Nat
  rank_ : Nat

/-- A `BinomialHeap<T>` object: `int size_; std::vector<std::optional<BinomialTree<T>>>
trees_;`. -/
structure HeapObj where
  size_ : Int
  trees_ : List (Option TreeObj)

/-- The memory: the `Node` objects and the `BinomialHeap` objects. -/
structure Memory where
  nodes : List NodeCell
  heaps : List HeapObj

/-- Method `GetRootValue` on a tree object: `return root_->value;`. -/
def TreeObj.GetRootValue (nodes : List NodeCell) (t : TreeObj) : Option Int :=
  match t.root_ with
  | some a => (nodes[a]?).map fun cell => cell.value
  | none => none

/-- Method `MergeOtherTree` on tree objects: `root_->children_.push_back(tree.GetRoot());
++rank_;`.  The result is the node store and the receiver after the call.  The last
statement, `tree.RemoveRoot()`, nulls the root of the consumed tree object, which is a
local of `MergeOtherHeap` that is not read again. -/
def TreeObj.MergeOtherTree (nodes : List NodeCell) (self tree : TreeObj) :
    Option (List NodeCell × TreeObj) :=
  match self.root_ with
  | some a =>
    match nodes[a]? with
    | some cell =>
      some (nodes.set a { value := cell.value, children_ := cell.children_ ++ [tree.root_] },
        { root_ := self.root_, rank_ := self.rank_ + 1 })
    | none => none
  | none => none

/-- Function `MergeBinomialTrees(left, right)` on tree objects. -/
def MergeBinomialTreesMem (nodes : List NodeCell) (left right : TreeObj) :
    Option (List NodeCell × TreeObj) :=
  match left.GetRootValue nodes, right.GetRootValue nodes with
  | some l, some r =>
    if l < r then left.MergeOtherTree nodes right else right.MergeOtherTree nodes left
  | _, _ => none

/-- Checked vector write `v[i] = x` on a vector of optional tree objects. -/
def writeObjSlot (v : List (Option TreeObj)) (i : Nat) (x : Option TreeObj) :
    Option (List (Option TreeObj)) :=
  if i < v.length then some (v.set i x) else none

/-- The node store and the variables that the loops of `MergeOtherHeap` modify: the field
`trees_` of the receiver and the locals `our_trees` and `transfer`. -/
structure MemMergeState where
  nodes : List NodeCell
  trees_ : List (Option TreeObj)
  our_trees : List (Option TreeObj)
  transfer : Option TreeObj

/-- Body of the first loop of `MergeOtherHeap` (source lines 119-145), on objects. -/
def firstLoopBodyMem (other_trees : List (Option TreeObj)) (i : Nat) (s : MemMergeState) :
    Option MemMergeState :=
  match s.our_trees[i]?, other_trees[i]? with
  | some our, some other =>
    match s.transfer with
    | none =>
      match our, other with
      | some a, none =>
        (writeObjSlot s.trees_ i (some a)).map fun t => { s with trees_ := t }
      | none, some b =>
        (writeObjSlot s.trees_ i (some b)).map fun t => { s with trees_ := t }
      | some a, some b =>
        (MergeBinomialTreesMem s.nodes a b).bind fun p =>
        (writeObjSlot s.trees_ i none).map fun t =>
          { s with nodes := p.1, trees_ := t, transfer := some p.2 }
      | none, none =>
        (writeObjSlot s.trees_ i none).map fun t => { s with trees_ := t }
    | some tr =>
      match our, other with
      | some a, none =>
        (writeObjSlot s.trees_ i none).bind fun t =>
        (MergeBinomialTreesMem s.nodes tr a).map fun p =>
          { s with nodes := p.1, trees_ := t, transfer := some p.2 }
      | none, some b =>
        (writeObjSlot s.trees_ i none).bind fun t =>
        (MergeBinomialTreesMem s.nodes tr b).map fun p =>
          { s with nodes := p.1, trees_ := t, transfer := some p.2 }
      | some a, some b =>
        (writeObjSlot s.trees_ i (some tr)).bind fun t =>
        (MergeBinomialTreesMem s.nodes a b).map fun p =>
          { nodes := p.1, trees_ := t, our_trees := s.our_trees.set i (some p.2),
            transfer := some p.2 }
      | none, none =>
        (writeObjSlot s.trees_ i (some tr)).map fun t =>
          { s with trees_ := t, transfer := none }
  | _, _ => none

/-- Body of the second loop of `MergeOtherHeap` (source lines 148-159), on objects. -/
def secondLoopBodyMem (i : Nat) (s : MemMergeState) : Option MemMergeState :=
  match s.our_trees[i]? with
  | some our =>
    match s.transfer with
    | some tr =>
      match our with
      | some a =>
        (MergeBinomialTreesMem s.nodes tr a).map fun p =>
          { s with nodes := p.1, transfer := some p.2 }
      | none =>
        (writeObjSlot s.trees_ i (some tr)).map fun t =>
          { s with trees_ := t, transfer := none }
    | none =>
      match our with
      | some a => (writeObjSlot s.trees_ i (some a)).map fun t => { s with trees_ := t }
      | none => some s
  | none => none

/-- Method `MergeOtherHeap(const BinomialHeap<T>& other)` called on the heap object at
address `self` with the heap object at address `other` (the two may be the same object).
The method reads `other` only up to `size_ += other.size_` (source line 113); the only
write to the receiver before that is `trees_.clear()`, which leaves `size_` alone, so
both objects are read on entry.  The loops work on the locals and on `trees_` of the
receiver, which is stored into the receiver at the end, with the new `size_`. -/
def Memory.MergeOtherHeap (m : Memory) (self other : Nat) : Option Memory :=
  match m.heaps[self]?, m.heaps[other]? with
  | some recv, some oth =>
    if recv.trees_.isEmpty then
      some { nodes := m.nodes,
             heaps := m.heaps.set self { trees_ := oth.trees_, size_ := oth.size_ } }
    else if oth.trees_.isEmpty then
      some m
    else
      let size := recv.size_ + oth.size_
      let swapped : Bool := decide (oth.trees_.length > recv.trees_.length)
      let our_trees := if swapped then oth.trees_ else recv.trees_
      let other_trees := if swapped then recv.trees_ else oth.trees_
      let s0 : MemMergeState :=
        { nodes := m.nodes, trees_ := List.replicate our_trees.length none,
          our_trees := our_trees, transfer := none }
      (forLoop (firstLoopBodyMem other_trees) other_trees.length 0 s0).bind fun s1 =>
      (forLoop secondLoopBodyMem (our_trees.length - other_trees.length)
        other_trees.length s1).bind fun s2 =>
      match s2.transfer with
      | some tr =>
        some { nodes := s2.nodes,
               heaps := m.heaps.set self { size_ := size, trees_ := s2.trees_ ++ [some tr] } }
      | none =>
        some { nodes := s2.nodes,
               heaps := m.heaps.set self { size_ := size, trees_ := s2.trees_ } }
  | _, _ => none

/-- A tree object whose root pointer is not null and points into a store of `n` nodes. -/
def TreeObj.Valid (n : Nat) (t : TreeObj) : Prop :=
  ∃ a, t.root_ = some a ∧ a < n

/-- Every occupied slot holds a valid tree object. -/
def SlotsValid (n : Nat) (l : List (Option TreeObj)) : Prop :=
  ∀ t, some t ∈ l → t.Valid n

/-- Both heap objects exist and all their trees have valid root pointers. -/
def Memory.ValidFor (m : Memory) (self other : Nat) : Prop :=
  ∃ recv oth, m.heaps[self]? = some recv ∧ m.heaps[other]? = some oth ∧
    SlotsValid m.nodes.length recv.trees_ ∧ SlotsValid m.nodes.length oth.trees_

/-- Invariant of the loops of `MergeOtherHeap` on objects. -/
def MemMergeState.Inv (n len : Nat) (s : MemMergeState) : Prop :=
  s.nodes.length = n ∧ s.trees_.length = len ∧ s.our_trees.length = len ∧
    SlotsValid n s.our_trees ∧ ∀ t, s.transfer = some t → t.Valid n

/-- Two heap objects, the first holding `2` and the second holding `1`, each in a
one-node tree (used as a test input). -/
def sampleMemory : Memory :=
  { nodes := [{ value := 2, children_ := [] }, { value := 1, children_ := [] }],
    heaps := [{ size_ := 1, trees_ := [some { root_ := some 0, rank_ := 0 }] },
              { size_ := 1, trees_ := [some { root_ := some 1, rank_ := 0 }] }] }


/-! ## Lemmas on nodes and trees -/

mutual
theorem Node.le_of_heapOrdered : ∀ (n : Node), n.HeapOrdered → ∀ x ∈ n.values, n.value ≤ x
  | .mk v cs, h, x, hx => by
    simp only [Node.values, List.mem_cons] at hx
    simp only [Node.HeapOrdered] at h
    rcases hx with rfl | hx
    · exact le_refl _
    · exact Node.le_of_heapOrderedList v cs h x hx
theorem Node.le_of_heapOrderedList : ∀ (v : Int) (cs : List Node),
    Node.HeapOrderedList v cs → ∀ x ∈ Node.valuesList cs, v ≤ x
  | _, [], _, x, hx => by simp [Node.valuesList] at hx
  | v, c :: cs, h, x, hx => by
    simp only [Node.valuesList, List.mem_append] at hx
    simp only [Node.HeapOrderedList] at h
    rcases hx with hx | hx
    · exact le_trans h.1 (Node.le_of_heapOrdered c h.2.1 x hx)
    · exact Node.le_of_heapOrderedList v cs h.2.2 x hx
end

theorem Node.valuesList_append (cs ds : List Node) :
    Node.valuesList (cs ++ ds) = Node.valuesList cs ++ Node.valuesList ds := by
  induction cs with
  | nil => simp [Node.valuesList]
  | cons c cs ih => simp [Node.valuesList, ih]

theorem Node.isBinomialList_append (cs : List Node) (c : Node) (j : Nat) :
    Node.IsBinomialList (cs ++ [c]) j ↔
      Node.IsBinomialList cs j ∧ c.IsBinomial (j + cs.length) := by
  induction cs generalizing j with
  | nil => simp [Node.IsBinomialList]
  | cons d cs ih =>
    have e : j + 1 + cs.length = j + (cs.length + 1) := by omega
    rw [List.cons_append]
    simp only [Node.IsBinomialList, List.length_cons]
    rw [ih (j + 1), e, and_assoc]

theorem Node.heapOrderedList_append (v : Int) (cs : List Node) (c : Node) :
    Node.HeapOrderedList v (cs ++ [c]) ↔
      Node.HeapOrderedList v cs ∧ v ≤ c.value ∧ c.HeapOrdered := by
  induction cs with
  | nil => simp [Node.HeapOrderedList]
  | cons d cs ih =>
    rw [List.cons_append]
    simp only [Node.HeapOrderedList]
    rw [ih]
    tauto

mutual
theorem Node.length_values_of_isBinomial : ∀ (n : Node) (k : Nat),
    n.IsBinomial k → n.values.length = 2 ^ k
  | .mk v cs, k, h => by
    simp only [Node.IsBinomial] at h
    have := Node.length_valuesList_of_isBinomialList cs 0 h.2
    simp only [Node.values, List.length_cons]
    rw [h.1] at this
    simp at this
    omega
theorem Node.length_valuesList_of_isBinomialList : ∀ (cs : List Node) (j : Nat),
    Node.IsBinomialList cs j → (Node.valuesList cs).length + 2 ^ j = 2 ^ (j + cs.length)
  | [], j, _ => by simp [Node.valuesList]
  | c :: cs, j, h => by
    simp only [Node.IsBinomialList] at h
    have h1 := Node.length_values_of_isBinomial c j h.1
    have h2 := Node.length_valuesList_of_isBinomialList cs (j + 1) h.2
    simp only [Node.valuesList, List.length_append, List.length_cons]
    have e : j + (cs.length + 1) = j + 1 + cs.length := by omega
    rw [e, ← h2, h1, pow_succ]
    omega
end

theorem Node.values_mk (v : Int) (cs : List Node) :
    (Node.mk v cs).values = v :: Node.valuesList cs := by
  simp [Node.values]

theorem Node.eta (n : Node) : Node.mk n.value n.children_ = n := by
  cases n; rfl

theorem Node.values_eq (n : Node) : n.values = n.value :: Node.valuesList n.children_ := by
  cases n; simp [Node.values, Node.value, Node.children_]

theorem Node.isBinomial_iff (n : Node) (k : Nat) :
    n.IsBinomial k ↔ n.children_.length = k ∧ Node.IsBinomialList n.children_ 0 := by
  cases n; simp [Node.IsBinomial, Node.children_]

theorem Node.heapOrdered_iff (n : Node) :
    n.HeapOrdered ↔ Node.HeapOrderedList n.value n.children_ := by
  cases n; simp [Node.HeapOrdered, Node.children_, Node.value]

theorem Node.heapOrderedList_mono (v w : Int) (hvw : v ≤ w) (cs : List Node) :
    Node.HeapOrderedList w cs → Node.HeapOrderedList v cs := by
  induction cs with
  | nil => simp [Node.HeapOrderedList]
  | cons d cs ih =>
    simp only [Node.HeapOrderedList]
    intro h
    exact ⟨le_trans hvw h.1, h.2.1, ih h.2.2⟩

/-! ## Lemmas on `MergeOtherTree` and `MergeBinomialTrees` -/

theorem mergeOtherTree_values (a b : BinomialTree) :
    (a.MergeOtherTree b).root_.values = a.root_.values ++ b.root_.values := by
  simp [BinomialTree.MergeOtherTree, Node.values_mk, Node.valuesList_append,
    Node.values_eq a.root_, Node.valuesList]

theorem mergeBinomialTrees_values (a b : BinomialTree) :
    List.Perm (MergeBinomialTrees a b).root_.values (a.root_.values ++ b.root_.values) := by
  unfold MergeBinomialTrees
  split
  · rw [mergeOtherTree_values]
  · rw [mergeOtherTree_values]; exact List.perm_append_comm

theorem mergeOtherTree_wf (i : Nat) (a b : BinomialTree) (ha : TreeWF i a) (hb : TreeWF i b) :
    TreeWF (i + 1) (a.MergeOtherTree b) := by
  obtain ⟨ra, sa⟩ := ha
  obtain ⟨_, sb⟩ := hb
  rw [Node.isBinomial_iff] at sa
  refine ⟨by simp [BinomialTree.MergeOtherTree, ra], ?_⟩
  simp only [BinomialTree.MergeOtherTree, Node.IsBinomial, List.length_append,
    List.length_singleton, Node.isBinomialList_append, sa.1, zero_add, true_and]
  exact ⟨sa.2, sb⟩

theorem mergeBinomialTrees_wf (i : Nat) (a b : BinomialTree) (ha : TreeWF i a)
    (hb : TreeWF i b) : TreeWF (i + 1) (MergeBinomialTrees a b) := by
  unfold MergeBinomialTrees
  split
  · exact mergeOtherTree_wf i a b ha hb
  · exact mergeOtherTree_wf i b a hb ha

theorem mergeBinomialTrees_ranked (i : Nat) (a b : BinomialTree) (ha : TreeRanked i a)
    (hb : TreeRanked i b) : TreeRanked (i + 1) (MergeBinomialTrees a b) := by
  unfold MergeBinomialTrees TreeRanked at *
  split <;> simp [BinomialTree.MergeOtherTree, ha, hb]

theorem mergeOtherTree_ordered (a b : BinomialTree) (hab : a.GetRootValue ≤ b.GetRootValue)
    (ha : a.root_.HeapOrdered) (hb : b.root_.HeapOrdered) :
    (a.MergeOtherTree b).root_.HeapOrdered := by
  rw [Node.heapOrdered_iff] at ha
  simp only [BinomialTree.MergeOtherTree, Node.HeapOrdered, Node.heapOrderedList_append]
  exact ⟨ha, hab, hb⟩

theorem mergeBinomialTrees_ordered (i : Nat) (a b : BinomialTree) (ha : TreeOrdered i a)
    (hb : TreeOrdered i b) : TreeOrdered (i + 1) (MergeBinomialTrees a b) := by
  unfold MergeBinomialTrees TreeOrdered at *
  split
  · rename_i h
    exact mergeOtherTree_ordered a b (le_of_lt h) ha hb
  · rename_i h
    exact mergeOtherTree_ordered b a (not_lt.mp h) hb ha

/-! ## Lemmas on the carry walk -/

theorem slotValues_cons (x : Option BinomialTree) (rest : List (Option BinomialTree)) :
    slotValues (x :: rest) = optValues x ++ slotValues rest := by
  cases x <;> simp [slotValues, optValues]

theorem slotWeight_cons (i : Nat) (x : Option BinomialTree)
    (rest : List (Option BinomialTree)) :
    slotWeight i (x :: rest) = x.isSome.toNat * 2 ^ i + slotWeight (i + 1) rest := by
  cases x <;> simp [slotWeight]

theorem slotsAll_cons (P : Nat → BinomialTree → Prop) (i : Nat) (x : Option BinomialTree)
    (rest : List (Option BinomialTree)) :
    SlotsAll P i (x :: rest) ↔ (∀ a ∈ x, P i a) ∧ SlotsAll P (i + 1) rest := by
  cases x <;> simp [SlotsAll]

theorem carryStep_values (o t tr : Option BinomialTree) :
    ((optValues (carryStep o t tr).1 : Multiset Int) + (optValues (carryStep o t tr).2 : Multiset Int))
      = (optValues o : Multiset Int) + (optValues t : Multiset Int) + (optValues tr : Multiset Int) := by
  rcases o with _ | a <;> rcases t with _ | b <;> rcases tr with _ | c <;>
    simp only [carryStep, optValues, Multiset.coe_nil, add_zero, zero_add,
      Multiset.coe_eq_coe.mpr (mergeBinomialTrees_values _ _), ← Multiset.coe_add] <;>
    first
      | rfl
      | (simp only [← Multiset.coe_add, add_comm, add_left_comm, add_assoc])

theorem carryStep_all (P : Nat → BinomialTree → Prop)
    (hP : ∀ i a b, P i a → P i b → P (i + 1) (MergeBinomialTrees a b))
    (i : Nat) (o t tr : Option BinomialTree)
    (ho : ∀ a ∈ o, P i a) (ht : ∀ a ∈ t, P i a) (htr : ∀ a ∈ tr, P i a) :
    (∀ a ∈ (carryStep o t tr).1, P i a) ∧ (∀ a ∈ (carryStep o t tr).2, P (i + 1) a) := by
  rcases o with _ | a <;> rcases t with _ | b <;> rcases tr with _ | c <;>
    simp only [carryStep, Option.mem_def, Option.some.injEq, forall_eq', reduceCtorEq,
      false_implies, implies_true, true_and, and_true] at * <;>
    first
      | assumption
      | exact hP _ _ _ (by assumption) (by assumption)
      | exact ⟨by assumption, hP _ _ _ (by assumption) (by assumption)⟩

theorem carryStep_weight (o t tr : Option BinomialTree) :
    (carryStep o t tr).1.isSome.toNat + 2 * (carryStep o t tr).2.isSome.toNat
      = o.isSome.toNat + t.isSome.toNat + tr.isSome.toNat := by
  rcases o with _ | a <;> rcases t with _ | b <;> rcases tr with _ | c <;>
    simp [carryStep]

theorem optValues_none : optValues none = [] := rfl

theorem walkRest_values (os : List (Option BinomialTree)) (tr : Option BinomialTree) :
    (slotValues (walkRest os tr) : Multiset Int)
      = (slotValues os : Multiset Int) + (optValues tr : Multiset Int) := by
  induction os generalizing tr with
  | nil => cases tr <;> simp [walkRest, slotValues, optValues]
  | cons o os ih =>
    have h := carryStep_values o none tr
    rw [optValues_none, Multiset.coe_nil, add_zero] at h
    simp only [walkRest, slotValues_cons, ← Multiset.coe_add, ih]
    rw [show ∀ (a b c : Multiset Int), a + (b + c) = (a + c) + b from
      fun a b c => by abel, h]
    abel

theorem walkPairs_values (os ts : List (Option BinomialTree)) (tr : Option BinomialTree) :
    (slotValues (walkPairs os ts tr) : Multiset Int)
      = (slotValues os : Multiset Int) + (slotValues ts : Multiset Int)
        + (optValues tr : Multiset Int) := by
  induction ts generalizing os tr with
  | nil => simp [walkPairs, walkRest_values, slotValues]
  | cons t ts ih =>
    cases os with
    | nil =>
      have h := carryStep_values none t tr
      rw [optValues_none, Multiset.coe_nil, zero_add] at h
      simp only [walkPairs, slotValues_cons, ← Multiset.coe_add, ih]
      simp only [slotValues, Multiset.coe_nil, zero_add]
      rw [show ∀ (a b c : Multiset Int), a + (b + c) = (a + c) + b from
        fun a b c => by abel, h]
      abel
    | cons o os =>
      have h := carryStep_values o t tr
      simp only [walkPairs, slotValues_cons, ← Multiset.coe_add, ih]
      rw [show ∀ (a b c d : Multiset Int), a + (b + c + d) = (a + d) + b + c from
        fun a b c d => by abel, h]
      abel

theorem walkRest_all (P : Nat → BinomialTree → Prop)
    (hP : ∀ i a b, P i a → P i b → P (i + 1) (MergeBinomialTrees a b))
    (os : List (Option BinomialTree)) (i : Nat) (tr : Option BinomialTree)
    (hos : SlotsAll P i os) (htr : ∀ a ∈ tr, P i a) :
    SlotsAll P i (walkRest os tr) := by
  induction os generalizing i tr with
  | nil =>
    cases tr with
    | none => simp [walkRest, SlotsAll]
    | some c => simpa [walkRest, SlotsAll] using htr
  | cons o os ih =>
    rw [slotsAll_cons] at hos
    have h := carryStep_all P hP i o none tr hos.1 (by simp) htr
    simp only [walkRest]
    rw [slotsAll_cons]
    exact ⟨h.1, ih (i + 1) _ hos.2 h.2⟩

theorem walkPairs_all (P : Nat → BinomialTree → Prop)
    (hP : ∀ i a b, P i a → P i b → P (i + 1) (MergeBinomialTrees a b))
    (os ts : List (Option BinomialTree)) (i : Nat) (tr : Option BinomialTree)
    (hos : SlotsAll P i os) (hts : SlotsAll P i ts) (htr : ∀ a ∈ tr, P i a) :
    SlotsAll P i (walkPairs os ts tr) := by
  induction ts generalizing os i tr with
  | nil => simpa [walkPairs] using walkRest_all P hP os i tr hos htr
  | cons t ts ih =>
    rw [slotsAll_cons] at hts
    cases os with
    | nil =>
      have h := carryStep_all P hP i none t tr (by simp) hts.1 htr
      simp only [walkPairs]
      rw [slotsAll_cons]
      exact ⟨h.1, ih [] (i + 1) _ (by simp [SlotsAll]) hts.2 h.2⟩
    | cons o os =>
      rw [slotsAll_cons] at hos
      have h := carryStep_all P hP i o t tr hos.1 hts.1 htr
      simp only [walkPairs]
      rw [slotsAll_cons]
      exact ⟨h.1, ih os (i + 1) _ hos.2 hts.2 h.2⟩

theorem walkRest_weight (os : List (Option BinomialTree)) (i : Nat)
    (tr : Option BinomialTree) :
    slotWeight i (walkRest os tr) = slotWeight i os + tr.isSome.toNat * 2 ^ i := by
  induction os generalizing i tr with
  | nil => cases tr <;> simp [walkRest, slotWeight]
  | cons o os ih =>
    have h := carryStep_weight o none tr
    simp only [Option.isSome_none, Bool.toNat_false, add_zero] at h
    simp only [walkRest, slotWeight_cons, ih, pow_succ]
    have e : ∀ (x y : Nat), x * 2 ^ i + y * (2 ^ i * 2) = (x + 2 * y) * 2 ^ i := by
      intro x y; ring
    have := e (carryStep o none tr).1.isSome.toNat (carryStep o none tr).2.isSome.toNat
    rw [h] at this
    linarith

theorem walkPairs_weight (os ts : List (Option BinomialTree)) (i : Nat)
    (tr : Option BinomialTree) :
    slotWeight i (walkPairs os ts tr)
      = slotWeight i os + slotWeight i ts + tr.isSome.toNat * 2 ^ i := by
  induction ts generalizing os i tr with
  | nil => simp [walkPairs, walkRest_weight, slotWeight]
  | cons t ts ih =>
    have e : ∀ (x y : Nat), x * 2 ^ i + y * (2 ^ i * 2) = (x + 2 * y) * 2 ^ i := by
      intro x y; ring
    cases os with
    | nil =>
      have h := carryStep_weight none t tr
      simp only [Option.isSome_none, Bool.toNat_false, zero_add] at h
      have := e (carryStep none t tr).1.isSome.toNat (carryStep none t tr).2.isSome.toNat
      rw [h] at this
      simp only [walkPairs, slotWeight_cons, ih, pow_succ]
      simp only [slotWeight]
      linarith
    | cons o os =>
      have h := carryStep_weight o t tr
      have := e (carryStep o t tr).1.isSome.toNat (carryStep o t tr).2.isSome.toNat
      rw [h] at this
      simp only [walkPairs, slotWeight_cons, ih, pow_succ]
      linarith

/-! ## The loops of `MergeOtherHeap` compute the carry walk -/

theorem getElem?_at {α : Type} (pre : List α) (x : α) (rest : List α) (i : Nat)
    (h : pre.length = i) : (pre ++ x :: rest)[i]? = some x := by
  subst h
  rw [List.getElem?_append_right (le_refl _)]
  simp

theorem set_at {α : Type} (pre : List α) (x y : α) (rest : List α) (i : Nat)
    (h : pre.length = i) : (pre ++ x :: rest).set i y = pre ++ y :: rest := by
  subst h; simp

theorem writeSlot_at (pre : List (Option BinomialTree)) (x y : Option BinomialTree)
    (rest : List (Option BinomialTree)) (i : Nat) (h : pre.length = i) :
    writeSlot (pre ++ x :: rest) i y = some (pre ++ y :: rest) := by
  unfold writeSlot
  rw [if_pos (by subst h; simp), set_at pre x y rest i h]

theorem secondLoopBody_eq (pre_t pre_o fill rest : List (Option BinomialTree))
    (o tr : Option BinomialTree) (i : Nat) (ht : pre_t.length = i) (ho : pre_o.length = i) :
    secondLoopBody i
        { trees_ := pre_t ++ none :: fill, our_trees := pre_o ++ o :: rest, transfer := tr }
      = some { trees_ := pre_t ++ (carryStep o none tr).1 :: fill,
               our_trees := pre_o ++ o :: rest,
               transfer := (carryStep o none tr).2 } := by
  unfold secondLoopBody
  simp only [getElem?_at pre_o o rest i ho]
  rcases o with _ | a <;> rcases tr with _ | c <;>
    simp [carryStep, writeSlot_at pre_t none _ fill i ht]

theorem firstLoopBody_eq (pre_t pre_o pre_x fill rest rest_x : List (Option BinomialTree))
    (o t tr : Option BinomialTree) (i : Nat) (ht : pre_t.length = i) (ho : pre_o.length = i)
    (hx : pre_x.length = i) :
    ∃ o1, firstLoopBody (pre_x ++ t :: rest_x) i
        { trees_ := pre_t ++ none :: fill, our_trees := pre_o ++ o :: rest, transfer := tr }
      = some { trees_ := pre_t ++ (carryStep o t tr).1 :: fill,
               our_trees := pre_o ++ o1 :: rest,
               transfer := (carryStep o t tr).2 } := by
  unfold firstLoopBody
  simp only [getElem?_at pre_o o rest i ho, getElem?_at pre_x t rest_x i hx]
  rcases o with _ | a <;> rcases t with _ | b <;> rcases tr with _ | c <;>
    simp [carryStep, writeSlot_at pre_t none _ fill i ht, set_at pre_o _ _ rest i ho]

theorem secondLoop_eq (rest : List (Option BinomialTree)) :
    ∀ (pre_t pre_o : List (Option BinomialTree)) (tr : Option BinomialTree) (i : Nat),
      pre_t.length = i → pre_o.length = i →
      (forLoop secondLoopBody rest.length i
          { trees_ := pre_t ++ List.replicate rest.length none, our_trees := pre_o ++ rest,
            transfer := tr }).map finishMerge
        = some (pre_t ++ walkRest rest tr) := by
  induction rest with
  | nil =>
    intro pre_t pre_o tr i _ _
    cases tr <;> simp [forLoop, finishMerge, walkRest]
  | cons o rest ih =>
    intro pre_t pre_o tr i ht ho
    simp only [List.length_cons, forLoop, List.replicate_succ]
    rw [secondLoopBody_eq pre_t pre_o _ rest o tr i ht ho, Option.some_bind]
    have h := ih (pre_t ++ [(carryStep o none tr).1]) (pre_o ++ [o]) (carryStep o none tr).2
      (i + 1) (by simp [ht]) (by simp [ho])
    simp only [List.append_assoc, List.singleton_append] at h
    rw [h]
    simp [walkRest]

theorem firstLoop_eq (ts : List (Option BinomialTree)) :
    ∀ (os pre_t pre_o pre_x : List (Option BinomialTree)) (tr : Option BinomialTree)
      (i : Nat), pre_t.length = i → pre_o.length = i → pre_x.length = i →
      ts.length ≤ os.length →
      ((forLoop (firstLoopBody (pre_x ++ ts)) ts.length i
          { trees_ := pre_t ++ List.replicate os.length none, our_trees := pre_o ++ os,
            transfer := tr }).bind
        fun s1 => forLoop secondLoopBody (os.length - ts.length) (i + ts.length) s1).map
          finishMerge
        = some (pre_t ++ walkPairs os ts tr) := by
  induction ts with
  | nil =>
    intro os pre_t pre_o pre_x tr i ht ho _ _
    simp only [List.length_nil, forLoop, Option.some_bind, Nat.sub_zero, Nat.add_zero]
    rw [secondLoop_eq os pre_t pre_o tr i ht ho]
    cases os <;> simp [walkPairs]
  | cons t ts ih =>
    intro os pre_t pre_o pre_x tr i ht ho hx hlen
    cases os with
    | nil => simp at hlen
    | cons o os =>
      simp only [List.length_cons, forLoop, List.replicate_succ]
      obtain ⟨o1, h1⟩ := firstLoopBody_eq pre_t pre_o pre_x (List.replicate os.length none)
        os ts o t tr i ht ho hx
      rw [h1, Option.some_bind]
      have h := ih os (pre_t ++ [(carryStep o t tr).1]) (pre_o ++ [o1]) (pre_x ++ [t])
        (carryStep o t tr).2 (i + 1) (by simp [ht]) (by simp [ho]) (by simp [hx])
        (by simpa using hlen)
      simp only [List.append_assoc, List.singleton_append] at h
      have e1 : os.length + 1 - (ts.length + 1) = os.length - ts.length := by omega
      have e2 : i + (ts.length + 1) = i + 1 + ts.length := by omega
      rw [e1, e2, h]
      simp [walkPairs]

theorem mergeLoops_eq (size : Int) (os ts : List (Option BinomialTree))
    (hlen : ts.length ≤ os.length) :
    ((forLoop (firstLoopBody ts) ts.length 0
        { trees_ := List.replicate os.length none, our_trees := os, transfer := none }).bind
      fun s1 =>
      (forLoop secondLoopBody (os.length - ts.length) ts.length s1).bind fun s2 =>
      match s2.transfer with
      | some tr => some ({ size_ := size, trees_ := s2.trees_ ++ [some tr] } : BinomialHeap)
      | none => some { size_ := size, trees_ := s2.trees_ })
      = some { size_ := size, trees_ := walkPairs os ts none } := by
  have h := firstLoop_eq ts os [] [] [] none 0 rfl rfl rfl hlen
  simp only [List.nil_append, Nat.zero_add] at h
  generalize (forLoop (firstLoopBody ts) ts.length 0
        { trees_ := List.replicate os.length none, our_trees := os, transfer := none }) = x1
    at h ⊢
  cases x1 with
  | none => simp at h
  | some s1 =>
    simp only [Option.some_bind] at h ⊢
    generalize (forLoop secondLoopBody (os.length - ts.length) ts.length s1) = x2 at h ⊢
    cases x2 with
    | none => simp at h
    | some s2 =>
      simp only [Option.map_some', Option.some.injEq, finishMerge] at h
      simp only [Option.some_bind]
      rcases hs : s2.transfer with _ | c
      · rw [hs] at h; simpa using h
      · rw [hs] at h; simpa using h

theorem MergeOtherHeap_eq (self other : BinomialHeap) :
    self.MergeOtherHeap other = some (mergeResult self other) := by
  unfold BinomialHeap.MergeOtherHeap mergeResult
  by_cases h1 : self.trees_.isEmpty = true
  · simp [h1]
  · by_cases h2 : other.trees_.isEmpty = true
    · simp [h1, h2]
    · rw [if_neg h1, if_neg h2, if_neg h1, if_neg h2]
      by_cases h3 : other.trees_.length > self.trees_.length
      · simp only [h3, decide_True, if_true]
        exact mergeLoops_eq _ _ _ (le_of_lt h3)
      · simp only [h3, decide_False, if_false, Bool.false_eq_true]
        exact mergeLoops_eq _ _ _ (not_lt.mp h3)

/-! ## Occupied slots and the binary digits of the size -/

theorem occupied_cons_zero (x : Option BinomialTree) (rest : List (Option BinomialTree)) :
    occupied (x :: rest) 0 = x.isSome := by
  cases x <;> simp [occupied]

theorem occupied_cons_succ (x : Option BinomialTree) (rest : List (Option BinomialTree))
    (j : Nat) : occupied (x :: rest) (j + 1) = occupied rest j := by
  simp [occupied]

theorem occupied_iff (trees : List (Option BinomialTree)) (i : Nat) :
    occupied trees i = true ↔ ∃ t, trees[i]? = some (some t) := by
  unfold occupied
  rcases h : trees[i]? with _ | _ | t <;> simp

theorem slotWeight_eq_sum (l : List (Option BinomialTree)) (i : Nat) :
    slotWeight i l
      = (((List.range l.length).filter (occupied l)).map fun j => 2 ^ (i + j)).sum := by
  induction l generalizing i with
  | nil => simp [slotWeight]
  | cons x rest ih =>
    have e : (occupied (x :: rest) ∘ Nat.succ) = occupied rest := by
      funext j; simp [Function.comp, occupied_cons_succ]
    have e2 : ((fun j => 2 ^ (i + j)) ∘ Nat.succ) = fun j => 2 ^ (i + 1 + j) := by
      funext j
      have e3 : i + (j + 1) = i + 1 + j := by omega
      simp [Function.comp, e3]
    rw [slotWeight_cons, ih (i + 1), List.length_cons, List.range_succ_eq_map,
      List.filter_cons, List.filter_map, e, occupied_cons_zero]
    cases x <;> simp [List.map_map, e2]

theorem slotWeight_zero_eq (l : List (Option BinomialTree)) :
    slotWeight 0 l = occupiedSum l := by
  rw [slotWeight_eq_sum]
  simp [occupiedSum, occupiedRanks]

theorem slotWeight_scale (l : List (Option BinomialTree)) (i : Nat) :
    slotWeight i l = 2 ^ i * slotWeight 0 l := by
  induction l generalizing i with
  | nil => simp [slotWeight]
  | cons x rest ih =>
    rw [slotWeight_cons, slotWeight_cons, ih (i + 1), ih 1, pow_succ]
    ring

theorem testBit_slotWeight (l : List (Option BinomialTree)) (j : Nat) :
    (slotWeight 0 l).testBit j = occupied l j := by
  induction l generalizing j with
  | nil => simp [slotWeight, occupied]
  | cons x rest ih =>
    have e : slotWeight 0 (x :: rest) = Nat.bit x.isSome (slotWeight 0 rest) := by
      rw [slotWeight_cons, slotWeight_scale rest (0 + 1), Nat.bit_val]
      cases x <;> simp; ring
    rw [e]
    cases j with
    | zero => rw [Nat.testBit_bit_zero, occupied_cons_zero]
    | succ j => rw [Nat.testBit_bit_succ, occupied_cons_succ, ih]

theorem slotWeight_add_le (l : List (Option BinomialTree)) (i : Nat) :
    slotWeight i l + 2 ^ i ≤ 2 ^ (i + l.length) := by
  induction l generalizing i with
  | nil => simp [slotWeight]
  | cons x rest ih =>
    have h := ih (i + 1)
    have e : i + (rest.length + 1) = i + 1 + rest.length := by omega
    rw [slotWeight_cons, List.length_cons, e]
    rw [pow_succ] at h
    cases x <;> simp <;> omega

theorem slotWeight_lt (l : List (Option BinomialTree)) (i : Nat) :
    slotWeight i l < 2 ^ (i + l.length) := by
  have h := slotWeight_add_le l i
  have : 0 < 2 ^ i := by positivity
  omega

/-! ## `GetMinIndex` -/

theorem minIndexLoop_eq (xs : List (Option BinomialTree)) :
    ∀ (pre : List (Option BinomialTree)) (s : Int × Int),
      forLoop (minIndexBody (pre ++ xs)) xs.length pre.length s
        = some (minScan xs pre.length s) := by
  induction xs with
  | nil => intro pre s; simp [forLoop, minScan]
  | cons x rest ih =>
    intro pre s
    have h := ih (pre ++ [x])
    simp only [List.append_assoc, List.singleton_append, List.length_append,
      List.length_singleton] at h
    simp only [List.length_cons, forLoop]
    unfold minIndexBody
    rw [getElem?_at pre x rest pre.length rfl]
    rcases x with _ | t
    · simp only [Option.some_bind, minScan]
      exact h s
    · simp only [minScan]
      split_ifs <;> simp only [Option.some_bind] <;> exact h _

theorem GetMinIndex_eq (h : BinomialHeap) :
    h.GetMinIndex = some (minScan h.trees_ 0 ((-1 : Int), (0 : Int))).1 := by
  unfold BinomialHeap.GetMinIndex
  have := minIndexLoop_eq h.trees_ [] ((-1 : Int), (0 : Int))
  simp only [List.nil_append, List.length_nil] at this
  rw [this]
  rfl

theorem scanInv_step (pre : List (Option BinomialTree)) (x : Option BinomialTree)
    (s : Int × Int) (hs : ScanInv pre s) :
    ScanInv (pre ++ [x])
      (match x with
       | none => s
       | some t =>
         if s.1 = -1 then ((pre.length : Int), t.GetRootValue)
         else if t.GetRootValue < s.2 then ((pre.length : Int), t.GetRootValue)
         else s) := by
  have hget : ∀ (j : Nat) (u : BinomialTree), pre[j]? = some (some u) →
      (pre ++ [x])[j]? = some (some u) := by
    intro j u hj
    have hlt : j < pre.length := by
      by_contra hc
      rw [List.getElem?_eq_none (not_lt.mp hc)] at hj
      exact absurd hj (by simp)
    rw [List.getElem?_append_left hlt, hj]
  rcases x with _ | t
  · rcases hs with ⟨h1, h2⟩ | ⟨j, u, h1, h2, h3, h4⟩
    · left
      refine ⟨h1, ?_⟩
      intro y hy
      simp only [List.mem_append, List.mem_singleton] at hy
      rcases hy with hy | hy
      · exact h2 y hy
      · exact hy
    · right
      refine ⟨j, u, h1, hget j u h2, h3, ?_⟩
      intro t1 ht1
      simp only [List.mem_append, List.mem_singleton, reduceCtorEq, or_false] at ht1
      exact h4 t1 ht1
  · have hnew : (pre ++ [some t])[pre.length]? = some (some t) :=
      getElem?_at pre (some t) [] pre.length rfl
    rcases hs with ⟨h1, h2⟩ | ⟨j, u, h1, h2, h3, h4⟩
    · right
      simp only [h1, if_true]
      refine ⟨pre.length, t, rfl, hnew, rfl, ?_⟩
      intro t1 ht1
      simp only [List.mem_append, List.mem_singleton, Option.some.injEq] at ht1
      rcases ht1 with ht1 | ht1
      · exact absurd (h2 _ ht1) (by simp)
      · rw [ht1]
    · right
      have hne : s.1 ≠ -1 := by rw [h1]; omega
      simp only [hne, if_false]
      by_cases hlt : t.GetRootValue < s.2
      · simp only [hlt, if_true]
        refine ⟨pre.length, t, rfl, hnew, rfl, ?_⟩
        intro t1 ht1
        simp only [List.mem_append, List.mem_singleton, Option.some.injEq] at ht1
        rcases ht1 with ht1 | ht1
        · exact le_trans (le_of_lt hlt) (h4 t1 ht1)
        · rw [ht1]
      · simp only [hlt, if_false]
        refine ⟨j, u, h1, hget j u h2, h3, ?_⟩
        intro t1 ht1
        simp only [List.mem_append, List.mem_singleton, Option.some.injEq] at ht1
        rcases ht1 with ht1 | ht1
        · exact h4 t1 ht1
        · rw [ht1]; exact not_lt.mp hlt

theorem minScan_inv (xs : List (Option BinomialTree)) :
    ∀ (pre : List (Option BinomialTree)) (s : Int × Int), ScanInv pre s →
      ScanInv (pre ++ xs) (minScan xs pre.length s) := by
  induction xs with
  | nil => intro pre s hs; simpa [minScan] using hs
  | cons x rest ih =>
    intro pre s hs
    have h1 := scanInv_step pre x s hs
    have h2 := ih (pre ++ [x]) _ h1
    simp only [List.append_assoc, List.singleton_append, List.length_append,
      List.length_singleton] at h2
    rcases x with _ | t
    · simpa [minScan] using h2
    · simpa [minScan] using h2

theorem GetMinIndex_scanInv (h : BinomialHeap) :
    ∃ s : Int × Int, h.GetMinIndex = some s.1 ∧ ScanInv h.trees_ s := by
  refine ⟨minScan h.trees_ 0 ((-1 : Int), (0 : Int)), GetMinIndex_eq h, ?_⟩
  have := minScan_inv h.trees_ [] ((-1 : Int), (0 : Int)) (Or.inl ⟨rfl, by simp⟩)
  simpa using this

/-! ## Removing one tree from the slots -/

theorem slotValues_set (l : List (Option BinomialTree)) (j : Nat) (t : BinomialTree)
    (h : l[j]? = some (some t)) :
    (slotValues l : Multiset Int)
      = (t.root_.values : Multiset Int) + (slotValues (l.set j none) : Multiset Int) := by
  induction l generalizing j with
  | nil => simp at h
  | cons x rest ih =>
    cases j with
    | zero =>
      simp only [List.getElem?_cons_zero, Option.some.injEq] at h
      subst h
      simp [slotValues]
    | succ j =>
      simp only [List.getElem?_cons_succ] at h
      simp only [List.set_cons_succ, slotValues_cons, ← Multiset.coe_add]
      rw [ih j h]
      abel

theorem slotWeight_set (l : List (Option BinomialTree)) (i j : Nat) (t : BinomialTree)
    (h : l[j]? = some (some t)) :
    slotWeight i l = 2 ^ (i + j) + slotWeight i (l.set j none) := by
  induction l generalizing i j with
  | nil => simp at h
  | cons x rest ih =>
    cases j with
    | zero =>
      simp only [List.getElem?_cons_zero, Option.some.injEq] at h
      subst h
      simp [slotWeight]
    | succ j =>
      simp only [List.getElem?_cons_succ] at h
      simp only [List.set_cons_succ, slotWeight_cons]
      rw [ih (i + 1) j h]
      have e : i + 1 + j = i + (j + 1) := by omega
      rw [e]
      omega

theorem slotsAll_get (P : Nat → BinomialTree → Prop) (l : List (Option BinomialTree))
    (i j : Nat) (t : BinomialTree) (h : l[j]? = some (some t)) (hl : SlotsAll P i l) :
    P (i + j) t := by
  induction l generalizing i j with
  | nil => simp at h
  | cons x rest ih =>
    rw [slotsAll_cons] at hl
    cases j with
    | zero =>
      simp only [List.getElem?_cons_zero, Option.some.injEq] at h
      exact hl.1 t (by simp [h])
    | succ j =>
      simp only [List.getElem?_cons_succ] at h
      have := ih (i + 1) j h hl.2
      have e : i + 1 + j = i + (j + 1) := by omega
      rwa [e] at this

theorem slotsAll_set (P : Nat → BinomialTree → Prop) (l : List (Option BinomialTree))
    (i j : Nat) (hl : SlotsAll P i l) : SlotsAll P i (l.set j none) := by
  induction l generalizing i j with
  | nil => simpa using hl
  | cons x rest ih =>
    rw [slotsAll_cons] at hl
    cases j with
    | zero => simpa [SlotsAll] using hl.2
    | succ j =>
      rw [List.set_cons_succ, slotsAll_cons]
      exact ⟨hl.1, ih (i + 1) j hl.2⟩

theorem slotValues_append_none (l : List (Option BinomialTree)) :
    slotValues (l ++ [none]) = slotValues l := by
  induction l with
  | nil => simp [slotValues]
  | cons x rest ih => rw [List.cons_append, slotValues_cons, slotValues_cons, ih]

theorem slotWeight_append_none (l : List (Option BinomialTree)) (i : Nat) :
    slotWeight i (l ++ [none]) = slotWeight i l := by
  induction l generalizing i with
  | nil => simp [slotWeight]
  | cons x rest ih => rw [List.cons_append, slotWeight_cons, slotWeight_cons, ih]

theorem slotsAll_append_none (P : Nat → BinomialTree → Prop)
    (l : List (Option BinomialTree)) (i : Nat) :
    SlotsAll P i (l ++ [none]) ↔ SlotsAll P i l := by
  induction l generalizing i with
  | nil => simp [SlotsAll]
  | cons x rest ih => rw [List.cons_append, slotsAll_cons, slotsAll_cons, ih]

theorem dropLast_append_none (l : List (Option BinomialTree)) (hl : l ≠ []) :
    l.dropLast ++ [none] = l.set (l.length - 1) none := by
  induction l with
  | nil => exact absurd rfl hl
  | cons x rest ih =>
    cases rest with
    | nil => simp
    | cons y rest =>
      have := ih (by simp)
      simp only [List.dropLast_cons₂, List.cons_append, List.length_cons,
        Nat.add_sub_cancel, List.set_cons_succ] at this ⊢
      rw [this]

theorem mem_slotValues (l : List (Option BinomialTree)) (v : Int) (h : v ∈ slotValues l) :
    ∃ t, some t ∈ l ∧ v ∈ t.root_.values := by
  induction l with
  | nil => simp [slotValues] at h
  | cons x rest ih =>
    rw [slotValues_cons, List.mem_append] at h
    rcases h with h | h
    · rcases x with _ | t
      · simp [optValues] at h
      · exact ⟨t, by simp, h⟩
    · obtain ⟨t, h1, h2⟩ := ih h
      exact ⟨t, List.mem_cons_of_mem _ h1, h2⟩

theorem slotWeight_of_all_none (l : List (Option BinomialTree)) (i : Nat)
    (h : ∀ x ∈ l, x = none) : slotWeight i l = 0 := by
  induction l generalizing i with
  | nil => simp [slotWeight]
  | cons x rest ih =>
    have hx := h x (by simp)
    subst hx
    simp only [slotWeight]
    exact ih (i + 1) (fun y hy => h y (List.mem_cons_of_mem _ hy))

/-! ## The last slot -/

theorem lastOccupied_cons (x : Option BinomialTree) (l : List (Option BinomialTree))
    (hl : l ≠ []) : LastOccupied (x :: l) ↔ LastOccupied l := by
  cases l with
  | nil => exact absurd rfl hl
  | cons y rest => simp [LastOccupied]

theorem lastOccupied_get (l : List (Option BinomialTree)) (h : LastOccupied l) :
    ∃ t, l[l.length - 1]? = some (some t) := by
  induction l with
  | nil => simp [LastOccupied] at h
  | cons x rest ih =>
    cases rest with
    | nil =>
      rcases x with _ | t
      · simp [LastOccupied] at h
      · exact ⟨t, by simp⟩
    | cons y rest =>
      rw [lastOccupied_cons _ _ (by simp)] at h
      obtain ⟨t, ht⟩ := ih h
      exact ⟨t, by simpa using ht⟩

theorem lastOccupied_set (l : List (Option BinomialTree)) (j : Nat) (h : LastOccupied l)
    (hj : j + 1 < l.length) : LastOccupied (l.set j none) := by
  induction l generalizing j with
  | nil => simp [LastOccupied] at h
  | cons x rest ih =>
    cases rest with
    | nil => simp at hj
    | cons y rest =>
      rw [lastOccupied_cons _ _ (by simp)] at h
      cases j with
      | zero => simpa [lastOccupied_cons] using h
      | succ j =>
        rw [List.set_cons_succ, lastOccupied_cons _ _ (by simp)]
        exact ih j h (by simpa using hj)

/-! ## The heap of the children of a removed root -/

theorem length_childTreesFrom (cs : List Node) (k : Nat) :
    (childTreesFrom k cs).length = cs.length := by
  induction cs generalizing k with
  | nil => simp [childTreesFrom]
  | cons c cs ih => simp [childTreesFrom, ih]

theorem slotValues_childTrees (cs : List Node) (k : Nat) :
    slotValues ((childTreesFrom k cs).map some) = Node.valuesList cs := by
  induction cs generalizing k with
  | nil => simp [childTreesFrom, slotValues, Node.valuesList]
  | cons c cs ih => simp [childTreesFrom, slotValues, Node.valuesList, ih]

theorem slotWeight_childTrees (cs : List Node) (k : Nat) :
    slotWeight k ((childTreesFrom k cs).map some) + 2 ^ k = 2 ^ (k + cs.length) := by
  induction cs generalizing k with
  | nil => simp [childTreesFrom, slotWeight]
  | cons c cs ih =>
    have h := ih (k + 1)
    have e : k + (cs.length + 1) = k + 1 + cs.length := by omega
    simp only [childTreesFrom, List.map_cons, slotWeight, List.length_cons]
    rw [e, ← h, pow_succ]
    omega

theorem slotsWF_childTrees (cs : List Node) (k : Nat) (h : Node.IsBinomialList cs k) :
    SlotsAll TreeWF k ((childTreesFrom k cs).map some) := by
  induction cs generalizing k with
  | nil => simp [childTreesFrom, SlotsAll]
  | cons c cs ih =>
    simp only [Node.IsBinomialList] at h
    simp only [childTreesFrom, List.map_cons, SlotsAll]
    exact ⟨⟨rfl, h.1⟩, ih (k + 1) h.2⟩

theorem slotsRanked_childTrees (cs : List Node) (k : Nat) :
    SlotsAll TreeRanked k ((childTreesFrom k cs).map some) := by
  induction cs generalizing k with
  | nil => simp [childTreesFrom, SlotsAll]
  | cons c cs ih =>
    simp only [childTreesFrom, List.map_cons, SlotsAll]
    exact ⟨rfl, ih (k + 1)⟩

theorem slotsOrdered_childTrees (cs : List Node) (v : Int) (k i : Nat)
    (h : Node.HeapOrderedList v cs) :
    SlotsAll TreeOrdered i ((childTreesFrom k cs).map some) := by
  induction cs generalizing k i with
  | nil => simp [childTreesFrom, SlotsAll]
  | cons c cs ih =>
    simp only [Node.HeapOrderedList] at h
    simp only [childTreesFrom, List.map_cons, SlotsAll]
    exact ⟨h.2.1, ih (k + 1) (i + 1) h.2.2⟩

theorem lastOccupied_map_some (ts : List BinomialTree) (h : ts ≠ []) :
    LastOccupied (ts.map some) := by
  induction ts with
  | nil => exact absurd rfl h
  | cons t ts ih =>
    cases ts with
    | nil => simp [LastOccupied]
    | cons u ts =>
      rw [List.map_cons, lastOccupied_cons _ _ (by simp)]
      exact ih (by simp)

/-! ## The last slot after a carry walk -/

theorem walkRest_ne_nil (o : Option BinomialTree) (os : List (Option BinomialTree))
    (tr : Option BinomialTree) : walkRest (o :: os) tr ≠ [] := by
  simp [walkRest]

theorem walkPairs_ne_nil_left (o : Option BinomialTree) (os ts : List (Option BinomialTree))
    (tr : Option BinomialTree) : walkPairs (o :: os) ts tr ≠ [] := by
  cases ts <;> simp [walkPairs, walkRest]

theorem walkPairs_ne_nil_right (t : Option BinomialTree) (os ts : List (Option BinomialTree))
    (tr : Option BinomialTree) : walkPairs os (t :: ts) tr ≠ [] := by
  cases os <;> simp [walkPairs]

theorem lastOccupied_walkRest (os : List (Option BinomialTree)) (tr : Option BinomialTree)
    (h : LastOccupied os) : LastOccupied (walkRest os tr) := by
  induction os generalizing tr with
  | nil => simp [LastOccupied] at h
  | cons o os ih =>
    cases os with
    | nil =>
      rcases o with _ | a
      · simp [LastOccupied] at h
      · rcases tr with _ | c <;> simp [walkRest, carryStep, LastOccupied]
    | cons o2 os =>
      rw [lastOccupied_cons _ _ (by simp)] at h
      rw [walkRest, lastOccupied_cons _ _ (walkRest_ne_nil _ _ _)]
      exact ih _ h

theorem lastOccupied_walkPairs_left (os ts : List (Option BinomialTree))
    (tr : Option BinomialTree) (hlen : ts.length ≤ os.length) (h : LastOccupied os) :
    LastOccupied (walkPairs os ts tr) := by
  induction ts generalizing os tr with
  | nil => simpa [walkPairs] using lastOccupied_walkRest os tr h
  | cons t ts ih =>
    cases os with
    | nil => simp [LastOccupied] at h
    | cons o os =>
      cases os with
      | nil =>
        have hts : ts = [] := by
          cases ts with
          | nil => rfl
          | cons _ _ => simp at hlen
        subst hts
        rcases o with _ | a
        · simp [LastOccupied] at h
        · rcases t with _ | b <;> rcases tr with _ | c <;>
            simp [walkPairs, walkRest, carryStep, LastOccupied]
      | cons o2 os =>
        rw [lastOccupied_cons _ _ (by simp)] at h
        rw [walkPairs, lastOccupied_cons _ _ (walkPairs_ne_nil_left _ _ _ _)]
        exact ih _ _ (by simpa using hlen) h

theorem lastOccupied_walkPairs_right (os ts : List (Option BinomialTree))
    (tr : Option BinomialTree) (hlen : os.length ≤ ts.length) (h : LastOccupied ts) :
    LastOccupied (walkPairs os ts tr) := by
  induction ts generalizing os tr with
  | nil => simp [LastOccupied] at h
  | cons t ts ih =>
    cases ts with
    | nil =>
      rcases t with _ | b
      · simp [LastOccupied] at h
      · cases os with
        | nil => rcases tr with _ | c <;> simp [walkPairs, walkRest, carryStep, LastOccupied]
        | cons o os =>
          have hos : os = [] := by
            cases os with
            | nil => rfl
            | cons _ _ => simp at hlen
          subst hos
          rcases o with _ | a <;> rcases tr with _ | c <;>
            simp [walkPairs, walkRest, carryStep, LastOccupied]
    | cons t2 ts =>
      rw [lastOccupied_cons _ _ (by simp)] at h
      cases os with
      | nil =>
        rw [walkPairs, lastOccupied_cons _ _ (walkPairs_ne_nil_right _ _ _ _)]
        exact ih _ _ (by simp) h
      | cons o os =>
        rw [walkPairs, lastOccupied_cons _ _ (walkPairs_ne_nil_right _ _ _ _)]
        exact ih _ _ (by simpa using hlen) h

/-! ## Properties of the merged heap -/

theorem isEmpty_eq_true_iff {α : Type} (l : List α) : l.isEmpty = true ↔ l = [] := by
  cases l <;> simp

theorem mergeResult_values (a b : BinomialHeap) :
    ((mergeResult a b).values : Multiset Int)
      = (a.values : Multiset Int) + (b.values : Multiset Int) := by
  unfold mergeResult BinomialHeap.values
  split_ifs with h1 h2 h3
  · rw [isEmpty_eq_true_iff] at h1
    simp [h1, slotValues]
  · rw [isEmpty_eq_true_iff] at h2
    simp [h2, slotValues]
  · simp only [walkPairs_values, optValues_none, Multiset.coe_nil, add_zero]
    rw [add_comm]
  · simp only [walkPairs_values, optValues_none, Multiset.coe_nil, add_zero]

theorem mergeResult_slotsAll (P : Nat → BinomialTree → Prop)
    (hP : ∀ i a b, P i a → P i b → P (i + 1) (MergeBinomialTrees a b))
    (a b : BinomialHeap) (ha : SlotsAll P 0 a.trees_) (hb : SlotsAll P 0 b.trees_) :
    SlotsAll P 0 (mergeResult a b).trees_ := by
  unfold mergeResult
  split_ifs with h1 h2 h3
  · exact hb
  · exact ha
  · exact walkPairs_all P hP _ _ 0 none hb ha (by simp)
  · exact walkPairs_all P hP _ _ 0 none ha hb (by simp)

theorem mergeResult_weight (a b : BinomialHeap) :
    slotWeight 0 (mergeResult a b).trees_
      = slotWeight 0 a.trees_ + slotWeight 0 b.trees_ := by
  unfold mergeResult
  split_ifs with h1 h2 h3
  · rw [isEmpty_eq_true_iff] at h1
    simp [h1, slotWeight]
  · rw [isEmpty_eq_true_iff] at h2
    simp [h2, slotWeight]
  · simp [walkPairs_weight, add_comm]
  · simp [walkPairs_weight]

theorem mergeResult_size (a b : BinomialHeap) (ha : a.trees_ = [] → a.size_ = 0)
    (hb : b.trees_ = [] → b.size_ = 0) :
    (mergeResult a b).size_ = a.size_ + b.size_ := by
  unfold mergeResult
  split_ifs with h1 h2 h3
  · rw [isEmpty_eq_true_iff] at h1
    simp [ha h1]
  · rw [isEmpty_eq_true_iff] at h2
    simp [hb h2]
  · rfl
  · rfl

theorem BinomialHeap.WF.size_eq {h : BinomialHeap} (hw : h.WF) :
    h.size_ = (slotWeight 0 h.trees_ : Int) := by
  rw [slotWeight_zero_eq]; exact hw.2

theorem BinomialHeap.WF.size_of_nil {h : BinomialHeap} (hw : h.WF) (he : h.trees_ = []) :
    h.size_ = 0 := by
  rw [hw.size_eq, he]; simp [slotWeight]

theorem mergeResult_wf (a b : BinomialHeap) (ha : a.WF) (hb : b.WF) :
    (mergeResult a b).WF ∧ (mergeResult a b).size_ = a.size_ + b.size_ := by
  have hsize := mergeResult_size a b ha.size_of_nil hb.size_of_nil
  refine ⟨⟨mergeResult_slotsAll TreeWF mergeBinomialTrees_wf a b ha.1 hb.1, ?_⟩, hsize⟩
  rw [hsize, ← slotWeight_zero_eq, mergeResult_weight, ha.size_eq, hb.size_eq]
  push_cast
  rfl

theorem mergeResult_trimmed_left (a b : BinomialHeap) (ha : a.Trimmed)
    (hlen : b.trees_.length ≤ a.trees_.length) : (mergeResult a b).Trimmed := by
  unfold mergeResult
  split_ifs with h1 h2 h3
  · rw [isEmpty_eq_true_iff] at h1
    rw [h1] at hlen
    left
    exact List.length_eq_zero.mp (Nat.le_zero.mp hlen)
  · exact ha
  · omega
  · rw [isEmpty_eq_true_iff] at h1
    right
    rcases ha with ha | ha
    · exact absurd ha h1
    · exact lastOccupied_walkPairs_left _ _ none hlen ha

theorem mergeResult_trimmed_right (a b : BinomialHeap) (hb : b.Trimmed)
    (hlen : a.trees_.length ≤ b.trees_.length) : (mergeResult a b).Trimmed := by
  unfold mergeResult
  split_ifs with h1 h2 h3
  · exact hb
  · rw [isEmpty_eq_true_iff] at h1 h2
    rw [h2] at hlen
    exact absurd (List.length_eq_zero.mp (Nat.le_zero.mp hlen)) h1
  · rw [isEmpty_eq_true_iff] at h2
    right
    rcases hb with hb | hb
    · exact absurd hb h2
    · exact lastOccupied_walkPairs_left _ _ none hlen hb
  · rw [isEmpty_eq_true_iff] at h2
    right
    rcases hb with hb | hb
    · exact absurd hb h2
    · exact lastOccupied_walkPairs_right _ _ none hlen hb

theorem slotsAll_mem (P : Nat → BinomialTree → Prop) (l : List (Option BinomialTree))
    (i : Nat) (t : BinomialTree) (hl : SlotsAll P i l) (ht : some t ∈ l) :
    ∃ k, P k t := by
  induction l generalizing i with
  | nil => simp at ht
  | cons x rest ih =>
    rw [slotsAll_cons] at hl
    rcases List.mem_cons.mp ht with h | h
    · exact ⟨i, hl.1 t (by simp [← h])⟩
    · exact ih (i + 1) hl.2 h

/-! ## `ExtractMin` on a heap that satisfies the invariant -/

theorem remove_tree_facts (l : List (Option BinomialTree)) (j : Nat) (t : BinomialTree)
    (hget : l[j]? = some (some t)) (hlast : LastOccupied l) :
    ∃ l1, (if ((2 ^ j : Nat) : Int) > (slotWeight 0 l : Int) - ((2 ^ j : Nat) : Int)
            then l.dropLast else l.set j none) = l1 ∧
      (slotValues l : Multiset Int)
        = (t.root_.values : Multiset Int) + (slotValues l1 : Multiset Int) ∧
      slotWeight 0 l = 2 ^ j + slotWeight 0 l1 ∧
      (∀ P : Nat → BinomialTree → Prop, SlotsAll P 0 l → SlotsAll P 0 l1) ∧
      (l1.length = j ∨ (LastOccupied l1 ∧ j < l1.length)) := by
  have hjlt : j < l.length := by
    by_contra hc
    rw [List.getElem?_eq_none (not_lt.mp hc)] at hget
    exact absurd hget (by simp)
  have hne : l ≠ [] := by
    intro he; rw [he] at hjlt; simp at hjlt
  have hv := slotValues_set l j t hget
  have hw := slotWeight_set l 0 j t hget
  rw [Nat.zero_add] at hw
  by_cases hj : j + 1 = l.length
  · have hj2 : l.length - 1 = j := by omega
    have hd := dropLast_append_none l hne
    rw [hj2] at hd
    have hwd : slotWeight 0 (l.set j none) = slotWeight 0 l.dropLast := by
      rw [← hd, slotWeight_append_none]
    have hlt := slotWeight_lt l.dropLast 0
    rw [List.length_dropLast, hj2, Nat.zero_add] at hlt
    refine ⟨l.dropLast, ?_, ?_, ?_, ?_, ?_⟩
    · rw [if_pos]
      rw [hw, hwd]
      push_cast
      have : (slotWeight 0 l.dropLast : Int) < 2 ^ j := by exact_mod_cast hlt
      linarith
    · rw [hv, ← hd, slotValues_append_none]
    · rw [hw, hwd]
    · intro P hP
      have := slotsAll_set P l 0 j hP
      rwa [← hd, slotsAll_append_none] at this
    · left
      rw [List.length_dropLast, hj2]
  · have hj2 : j + 1 < l.length := by omega
    obtain ⟨u, hu⟩ := lastOccupied_get l hlast
    have hu2 : (l.set j none)[l.length - 1]? = some (some u) := by
      rw [List.getElem?_set_ne (by omega)]
      exact hu
    have hw2 := slotWeight_set (l.set j none) 0 (l.length - 1) u hu2
    rw [Nat.zero_add] at hw2
    have hpow : 2 ^ (j + 1) ≤ 2 ^ (l.length - 1) :=
      Nat.pow_le_pow_right (by norm_num) (by omega)
    rw [pow_succ] at hpow
    refine ⟨l.set j none, ?_, hv, hw, fun P hP => slotsAll_set P l 0 j hP, ?_⟩
    · rw [if_neg]
      rw [hw]
      push_cast
      have : (2 ^ j * 2 : Int) ≤ (slotWeight 0 (l.set j none) : Int) := by
        have : 2 ^ j * 2 ≤ slotWeight 0 (l.set j none) := by omega
        exact_mod_cast this
      have h0 : (0 : Int) < 2 ^ j := by positivity
      linarith
    · right
      exact ⟨lastOccupied_set l j hlast hj2, by simpa using hjlt⟩

theorem getSize_eq (t : BinomialTree) : t.GetSize = ((2 ^ t.rank_ : Nat) : Int) := by
  simp [BinomialTree.GetSize, Nat.shiftLeft_eq]

theorem ofTrees_children_facts (t : BinomialTree) (j : Nat) (hwf : TreeWF j t) :
    (BinomialHeap.ofTrees t.GetChildrenAsTrees).WF ∧
    (BinomialHeap.ofTrees t.GetChildrenAsTrees).size_ = ((2 ^ j : Nat) : Int) - 1 ∧
    (BinomialHeap.ofTrees t.GetChildrenAsTrees).trees_.length = j ∧
    (BinomialHeap.ofTrees t.GetChildrenAsTrees).Trimmed := by
  obtain ⟨_, hshape⟩ := hwf
  rw [Node.isBinomial_iff] at hshape
  have hlen : (List.map some (childTreesFrom 0 t.root_.children_)).length = j := by
    rw [List.length_map, length_childTreesFrom, hshape.1]
  have hsz : (BinomialHeap.ofTrees t.GetChildrenAsTrees).size_ = ((2 ^ j : Nat) : Int) - 1 := by
    simp only [BinomialHeap.ofTrees, BinomialTree.GetChildrenAsTrees]
    rw [hlen, Nat.shiftLeft_eq, Nat.one_mul]
  have hwt := slotWeight_childTrees t.root_.children_ 0
  rw [Nat.zero_add, hshape.1, pow_zero] at hwt
  refine ⟨⟨slotsWF_childTrees _ 0 hshape.2, ?_⟩, hsz, hlen, ?_⟩
  · rw [hsz, ← slotWeight_zero_eq]
    simp only [BinomialHeap.ofTrees, BinomialTree.GetChildrenAsTrees]
    rw [← hwt]
    push_cast
    ring
  · simp only [BinomialHeap.Trimmed, BinomialHeap.ofTrees, BinomialTree.GetChildrenAsTrees]
    by_cases hc : childTreesFrom 0 t.root_.children_ = []
    · left; simp [hc]
    · right; exact lastOccupied_map_some _ hc

theorem ofTrees_children_values (t : BinomialTree) :
    t.root_.values
      = t.GetRootValue :: (BinomialHeap.ofTrees t.GetChildrenAsTrees).values := by
  simp only [BinomialHeap.values, BinomialHeap.ofTrees, BinomialTree.GetChildrenAsTrees,
    slotValues_childTrees, BinomialTree.GetRootValue]
  exact Node.values_eq _

theorem ofTrees_children_ordered (t : BinomialTree) (h : t.root_.HeapOrdered) :
    (BinomialHeap.ofTrees t.GetChildrenAsTrees).Ordered := by
  rw [Node.heapOrdered_iff] at h
  exact slotsOrdered_childTrees _ _ 0 0 h

theorem ExtractMin_inv (h : BinomialHeap) (hinv : h.Inv) (hs : h.size_ ≠ 0) :
    ∃ (j : Nat) (t : BinomialTree) (h1 : BinomialHeap),
      h.GetMinIndex = some (j : Int) ∧ h.trees_[j]? = some (some t) ∧
      h.ExtractMin = some (Except.ok t.GetRootValue, h1) ∧ h1.Inv ∧
      h1.size_ = h.size_ - 1 ∧ (∀ v ∈ h.values, t.GetRootValue ≤ v) ∧
      (h.values : Multiset Int) = t.GetRootValue ::ₘ (h1.values : Multiset Int) := by
  obtain ⟨hwf, hord, htrim⟩ := hinv
  obtain ⟨s, hidx, hscan⟩ := GetMinIndex_scanInv h
  have hW := hwf.size_eq
  rcases hscan with ⟨_, hnone⟩ | ⟨j, t, hs1, hget, hval, hmin⟩
  · rw [slotWeight_of_all_none _ 0 hnone] at hW
    exact absurd hW hs
  have hlast : LastOccupied h.trees_ := by
    rcases htrim with he | hl
    · rw [he] at hget; simp at hget
    · exact hl
  have htwf : TreeWF j t := by
    simpa using slotsAll_get TreeWF h.trees_ 0 j t hget hwf.1
  have hrank : t.rank_ = j := htwf.1
  have htord : t.root_.HeapOrdered := by
    simpa [TreeOrdered] using slotsAll_get TreeOrdered h.trees_ 0 j t hget hord
  obtain ⟨l1, hl1, hv1, hw1, hall1, hlen1⟩ := remove_tree_facts h.trees_ j t hget hlast
  obtain ⟨nwf, nsize, nlen, ntrim⟩ := ofTrees_children_facts t j htwf
  have xwf : ({ size_ := h.size_ - t.GetSize, trees_ := l1 } : BinomialHeap).WF := by
    refine ⟨hall1 TreeWF hwf.1, ?_⟩
    show h.size_ - t.GetSize = (occupiedSum l1 : Int)
    rw [← slotWeight_zero_eq, getSize_eq, hrank, hW, hw1]
    push_cast
    ring
  have hmerge := mergeResult_wf { size_ := h.size_ - t.GetSize, trees_ := l1 }
    (BinomialHeap.ofTrees t.GetChildrenAsTrees) xwf nwf
  refine ⟨j, t, mergeResult { size_ := h.size_ - t.GetSize, trees_ := l1 }
    (BinomialHeap.ofTrees t.GetChildrenAsTrees), ?_, hget, ?_, ⟨hmerge.1, ?_, ?_⟩, ?_, ?_, ?_⟩
  · rw [hidx, hs1]
  · unfold BinomialHeap.ExtractMin
    rw [if_neg hs, hidx, hs1]
    simp only [Int.toNat_ofNat, hget]
    rw [if_neg (by omega)]
    rw [getSize_eq, hrank, hW, hl1, MergeOtherHeap_eq]
  · exact mergeResult_slotsAll TreeOrdered mergeBinomialTrees_ordered _ _
      (hall1 TreeOrdered hord) (ofTrees_children_ordered t htord)
  · rcases hlen1 with hlen1 | ⟨hl, hlen1⟩
    · exact mergeResult_trimmed_right _ _ ntrim (by simp only [nlen, hlen1]; exact le_refl _)
    · exact mergeResult_trimmed_left _ _ (Or.inr hl)
        (by simp only [nlen]; exact le_of_lt hlen1)
  · rw [hmerge.2, nsize, getSize_eq, hrank]
    ring
  · intro v hv
    obtain ⟨u, hu1, hu2⟩ := mem_slotValues h.trees_ v hv
    obtain ⟨k, hk⟩ := slotsAll_mem TreeOrdered h.trees_ 0 u hord hu1
    have h1 := Node.le_of_heapOrdered u.root_ hk v hu2
    have h2 := hmin u hu1
    have h3 : t.GetRootValue ≤ u.GetRootValue := by rw [hval]; exact h2
    exact le_trans h3 h1
  · rw [mergeResult_values]
    simp only [BinomialHeap.values]
    rw [hv1, ofTrees_children_values t]
    simp only [BinomialHeap.values, ← Multiset.cons_coe]
    rw [Multiset.cons_add, add_comm]

/-! ## `Insert`, and the invariant of reachable heaps -/

theorem length_slotValues_of_wf (l : List (Option BinomialTree)) (i : Nat)
    (h : SlotsAll TreeWF i l) : (slotValues l).length = slotWeight i l := by
  induction l generalizing i with
  | nil => simp [slotValues, slotWeight]
  | cons x rest ih =>
    rcases x with _ | t
    · simp only [SlotsAll] at h
      simp only [slotValues, slotWeight]
      exact ih (i + 1) h
    · simp only [SlotsAll] at h
      simp only [slotValues, slotWeight, List.length_append]
      rw [ih (i + 1) h.2, Node.length_values_of_isBinomial _ i h.1.2]

theorem BinomialHeap.WF.length_values {h : BinomialHeap} (hw : h.WF) :
    (h.values.length : Int) = h.size_ := by
  rw [hw.size_eq, BinomialHeap.values, length_slotValues_of_wf _ 0 hw.1]

theorem inv_default : ({} : BinomialHeap).Inv := by
  refine ⟨⟨by simp [SlotsAll], by simp [occupiedSum, occupiedRanks]⟩, by
    simp [BinomialHeap.Ordered, SlotsAll], Or.inl rfl⟩

theorem inv_singleton (v : Int) : (BinomialHeap.ofTree (BinomialTree.ofValue v)).Inv := by
  refine ⟨⟨?_, ?_⟩, ?_, ?_⟩
  · simp [BinomialHeap.ofTree, BinomialTree.ofValue, SlotsAll, TreeWF, Node.IsBinomial,
      Node.IsBinomialList]
  · rw [← slotWeight_zero_eq]
    simp [BinomialHeap.ofTree, slotWeight]
  · simp [BinomialHeap.Ordered, BinomialHeap.ofTree, BinomialTree.ofValue, SlotsAll,
      TreeOrdered, Node.HeapOrdered, Node.HeapOrderedList]
  · right
    simp [BinomialHeap.ofTree, LastOccupied]

theorem Insert_inv (h : BinomialHeap) (v : Int) (hinv : h.Inv) :
    ∃ h1, h.Insert v = some h1 ∧ h1.Inv ∧ h1.size_ = h.size_ + 1 ∧
      (h1.values : Multiset Int) = v ::ₘ (h.values : Multiset Int) := by
  obtain ⟨hwf, hord, htrim⟩ := hinv
  obtain ⟨swf, sord, strim⟩ := inv_singleton v
  have hm := mergeResult_wf h _ hwf swf
  refine ⟨mergeResult h (BinomialHeap.ofTree (BinomialTree.ofValue v)),
    MergeOtherHeap_eq _ _, ⟨hm.1, ?_, ?_⟩, ?_, ?_⟩
  · exact mergeResult_slotsAll TreeOrdered mergeBinomialTrees_ordered _ _ hord sord
  · by_cases he : h.trees_ = []
    · exact mergeResult_trimmed_right _ _ strim (by simp [he])
    · refine mergeResult_trimmed_left _ _ htrim ?_
      have : 0 < h.trees_.length := List.length_pos.mpr he
      simpa [BinomialHeap.ofTree] using this
  · rw [hm.2]; rfl
  · rw [mergeResult_values]
    simp only [BinomialHeap.values, BinomialHeap.ofTree, BinomialTree.ofValue, slotValues,
      Node.values, Node.valuesList, List.append_nil]
    rw [← Multiset.cons_coe, add_comm]
    rfl

theorem ExtractMin_ok_size (h h1 : BinomialHeap) (m : Int)
    (he : h.ExtractMin = some (Except.ok m, h1)) : h.size_ ≠ 0 := by
  intro hs
  unfold BinomialHeap.ExtractMin at he
  rw [if_pos hs] at he
  simp at he

theorem ExtractMin_error_size (h h1 : BinomialHeap) (e : String)
    (he : h.ExtractMin = some (Except.error e, h1)) : h.size_ = 0 := by
  by_contra hs
  unfold BinomialHeap.ExtractMin at he
  rw [if_neg hs] at he
  simp only [MergeOtherHeap_eq] at he
  split at he
  · simp at he
  · split at he
    · simp at he
    · split at he <;> simp at he

theorem reachable_inv (h : BinomialHeap) (hr : Reachable h) : h.Inv := by
  induction hr with
  | empty => exact inv_default
  | insert h h1 v _ he ih =>
    obtain ⟨h2, e2, hinv, _⟩ := Insert_inv h v ih
    rw [e2] at he
    cases he
    exact hinv
  | extractMin h h1 m _ he ih =>
    obtain ⟨j, t, h2, _, _, e2, hinv, _⟩ := ExtractMin_inv h ih (ExtractMin_ok_size h h1 m he)
    rw [e2] at he
    cases he
    exact hinv

/-! ## `HeapSort` -/

theorem insertAll_inv (vs : List Int) :
    ∀ (h : BinomialHeap), h.Inv →
      ∃ h1, insertAll vs h = some h1 ∧ h1.Inv ∧ h1.size_ = h.size_ + vs.length ∧
        (h1.values : Multiset Int) = (vs : Multiset Int) + (h.values : Multiset Int) := by
  induction vs with
  | nil => intro h hinv; exact ⟨h, rfl, hinv, by simp, by simp⟩
  | cons v vs ih =>
    intro h hinv
    obtain ⟨h1, e1, inv1, s1, v1⟩ := Insert_inv h v hinv
    obtain ⟨h2, e2, inv2, s2, v2⟩ := ih h1 inv1
    refine ⟨h2, ?_, inv2, ?_, ?_⟩
    · simp only [insertAll, e1, Option.some_bind, e2]
    · rw [s2, s1, List.length_cons]; push_cast; ring
    · rw [v2, v1, ← Multiset.cons_coe, Multiset.cons_add, Multiset.add_cons]

theorem extractLoop_sorted (n : Nat) :
    ∀ (h : BinomialHeap) (res : List Int), h.Inv → h.size_ = (n : Int) →
      ∃ out, extractLoop n h res = some (Except.ok (res ++ out)) ∧
        out.Sorted (· ≤ ·) ∧ (out : Multiset Int) = (h.values : Multiset Int) := by
  induction n with
  | zero =>
    intro h res hinv hs
    refine ⟨[], by simp [extractLoop], List.sorted_nil, ?_⟩
    have hl := hinv.1.length_values
    rw [hs] at hl
    have : h.values = [] := List.length_eq_zero.mp (by exact_mod_cast hl)
    rw [this]
  | succ n ih =>
    intro h res hinv hs
    have hne : h.size_ ≠ 0 := by rw [hs]; push_cast; omega
    obtain ⟨j, t, h1, _, _, e1, inv1, s1, hmin, hv⟩ := ExtractMin_inv h hinv hne
    obtain ⟨out, e2, hsorted, hout⟩ := ih h1 (res ++ [t.GetRootValue]) inv1
      (by rw [s1, hs]; push_cast; ring)
    refine ⟨t.GetRootValue :: out, ?_, ?_, ?_⟩
    · simp only [extractLoop, e1, e2, List.append_assoc, List.singleton_append]
    · refine List.sorted_cons.mpr ⟨?_, hsorted⟩
      intro b hb
      apply hmin b
      have hb2 : b ∈ (h.values : Multiset Int) := by
        rw [hv, ← hout]
        exact Multiset.mem_cons_of_mem (Multiset.mem_coe.mpr hb)
      exact Multiset.mem_coe.mp hb2
    · rw [hv, ← hout, Multiset.cons_coe]

theorem HeapSort_spec (vs : List Int) :
    ∃ res, HeapSort vs = some (Except.ok res) ∧ res.Sorted (· ≤ ·) ∧
      (res : Multiset Int) = (vs : Multiset Int) := by
  obtain ⟨h1, e1, inv1, s1, v1⟩ := insertAll_inv vs {} inv_default
  obtain ⟨out, e2, hsorted, hout⟩ := extractLoop_sorted vs.length h1 [] inv1
    (by rw [s1]; simp)
  refine ⟨out, ?_, hsorted, ?_⟩
  · simp only [HeapSort, e1, e2, List.nil_append]
  · rw [hout, v1]
    simp [BinomialHeap.values, slotValues]

/-! ## The claims -/

/-- C1: for every list of integers `vs`, `HeapSort vs` (insert every element into an empty
heap, then `ExtractMin` `|vs|` times) returns normally, and the list it returns is
non-decreasing. -/
theorem C1_HeapSort_non_decreasing (vs : List Int) :
    ∃ res, HeapSort vs = some (Except.ok res) ∧ List.Sorted (· ≤ ·) res := by
  obtain ⟨res, e, hs, _⟩ := HeapSort_spec vs
  exact ⟨res, e, hs⟩

/-- C2: for every list of integers `vs`, `HeapSort vs` completes without undefined
behaviour and without throwing the empty-heap error, and its result is a permutation of
`vs`: same multiset of values, hence the same length. -/
theorem C2_HeapSort_permutation (vs : List Int) :
    ∃ res, HeapSort vs = some (Except.ok res) ∧ List.Perm res vs ∧
      res.length = vs.length ∧ (res : Multiset Int) = (vs : Multiset Int) := by
  obtain ⟨res, e, _, hm⟩ := HeapSort_spec vs
  have hp : List.Perm res vs := Multiset.coe_eq_coe.mp hm
  exact ⟨res, e, hp, hp.length_eq, hm⟩

/-- C3: on a heap reachable from the empty heap by `Insert` and successful `ExtractMin`
calls and of size `> 0`, `ExtractMin` returns a value `m` that is stored in the heap and
is less than or equal to every stored value, and the multiset of values stored afterwards
is the multiset before with exactly one occurrence of `m` removed. -/
theorem C3_ExtractMin_returns_minimum (h : BinomialHeap) (hr : Reachable h)
    (hpos : 0 < h.size_) :
    ∃ m h1, h.ExtractMin = some (Except.ok m, h1) ∧
      (∀ v ∈ h.values, m ≤ v) ∧ m ∈ h.values ∧
      (h1.values : Multiset Int) = (h.values : Multiset Int).erase m ∧
      (h.values : Multiset Int) = m ::ₘ (h1.values : Multiset Int) := by
  obtain ⟨j, t, h1, _, _, e1, _, _, hmin, hv⟩ :=
    ExtractMin_inv h (reachable_inv h hr) (ne_of_gt hpos)
  refine ⟨t.GetRootValue, h1, e1, hmin, ?_, ?_, hv⟩
  · have : t.GetRootValue ∈ (h.values : Multiset Int) := by
      rw [hv]; exact Multiset.mem_cons_self _ _
    exact Multiset.mem_coe.mp this
  · rw [hv, Multiset.erase_cons_head]

/-- Witness for C3: the heap after `Insert(4); Insert(2)`, which stores `2` and `4`. -/
theorem C3_ExtractMin_returns_minimum_witness :
    Reachable sampleHeap ∧ 0 < sampleHeap.size_ ∧
    ∃ m h1, sampleHeap.ExtractMin = some (Except.ok m, h1) ∧
      (∀ v ∈ sampleHeap.values, m ≤ v) ∧ m ∈ sampleHeap.values ∧
      (h1.values : Multiset Int) = (sampleHeap.values : Multiset Int).erase m ∧
      (sampleHeap.values : Multiset Int) = m ::ₘ (h1.values : Multiset Int) :=
  ⟨Reachable.insert _ _ 2 (Reachable.insert {} _ 4 Reachable.empty rfl) rfl, by decide,
    C3_ExtractMin_returns_minimum sampleHeap
      (Reachable.insert _ _ 2 (Reachable.insert {} _ 4 Reachable.empty rfl) rfl)
      (by decide)⟩

/-- C4: `ExtractMin` on a heap whose `size_` is `0` throws the empty-heap error and leaves
the heap (`size_` and `trees_`) as it was. -/
theorem C4_ExtractMin_empty_throws (h : BinomialHeap) (hs : h.size_ = 0) :
    h.ExtractMin = some (Except.error "Try to extract from empty heap!", h) := by
  unfold BinomialHeap.ExtractMin
  rw [if_pos hs]
  rfl

/-- Witness for C4: the default-constructed heap. -/
theorem C4_ExtractMin_empty_throws_witness :
    ({} : BinomialHeap).size_ = 0 ∧
      ({} : BinomialHeap).ExtractMin
        = some (Except.error "Try to extract from empty heap!", {}) :=
  ⟨rfl, C4_ExtractMin_empty_throws {} rfl⟩

theorem reachable_sampleHeap : Reachable sampleHeap :=
  Reachable.insert _ _ 2 (Reachable.insert {} _ 4 Reachable.empty rfl) rfl

/-- C5: the empty-heap error is raised only when `size_ == 0`.  On a heap reachable from
the empty heap by `Insert` and successful `ExtractMin` calls with `size_ > 0`,
`GetMinIndex` returns an in-range index of an occupied slot (never `-1`) and `ExtractMin`
returns a value: it neither throws nor performs an invalid slot or `optional` access.
`MergeOtherHeap` performs no invalid access on any pair of heaps, and an `ExtractMin` that
throws was called on a heap with `size_ == 0`. -/
theorem C5_ExtractMin_fails_only_when_empty (h : BinomialHeap) (hr : Reachable h)
    (hpos : 0 < h.size_) :
    (∃ (j : Nat) (t : BinomialTree), h.GetMinIndex = some (j : Int) ∧
      j < h.trees_.length ∧ h.trees_[j]? = some (some t)) ∧
    (∃ m h1, h.ExtractMin = some (Except.ok m, h1)) ∧
    (∀ a b : BinomialHeap, ∃ r, a.MergeOtherHeap b = some r) ∧
    (∀ (g g1 : BinomialHeap) (e : String),
      g.ExtractMin = some (Except.error e, g1) → g.size_ = 0) := by
  obtain ⟨j, t, h1, hidx, hget, e1, _⟩ :=
    ExtractMin_inv h (reachable_inv h hr) (ne_of_gt hpos)
  refine ⟨⟨j, t, hidx, ?_, hget⟩, ⟨t.GetRootValue, h1, e1⟩,
    fun a b => ⟨_, MergeOtherHeap_eq a b⟩, ExtractMin_error_size⟩
  by_contra hc
  rw [List.getElem?_eq_none (not_lt.mp hc)] at hget
  exact absurd hget (by simp)

/-- Witness for C5: the heap after `Insert(4); Insert(2)`. -/
theorem C5_ExtractMin_fails_only_when_empty_witness :
    Reachable sampleHeap ∧ 0 < sampleHeap.size_ ∧
    ((∃ (j : Nat) (t : BinomialTree), sampleHeap.GetMinIndex = some (j : Int) ∧
      j < sampleHeap.trees_.length ∧ sampleHeap.trees_[j]? = some (some t)) ∧
    (∃ m h1, sampleHeap.ExtractMin = some (Except.ok m, h1)) ∧
    (∀ a b : BinomialHeap, ∃ r, a.MergeOtherHeap b = some r) ∧
    (∀ (g g1 : BinomialHeap) (e : String),
      g.ExtractMin = some (Except.error e, g1) → g.size_ = 0)) :=
  ⟨reachable_sampleHeap, by decide,
    C5_ExtractMin_fails_only_when_empty sampleHeap reachable_sampleHeap (by decide)⟩

theorem runOps_inv (ops : List Op) :
    ∀ (s : Trace), s.heap.Inv → s.heap.size_ = (s.inserts : Int) - (s.extracts : Int) →
      ∃ s1, runOps ops s = some s1 ∧ s1.heap.Inv ∧
        s1.heap.size_ = (s1.inserts : Int) - (s1.extracts : Int) ∧
        s1.inserts = s.inserts + ops.countP Op.isInsert := by
  induction ops with
  | nil => intro s hinv hs; exact ⟨s, rfl, hinv, hs, by simp⟩
  | cons op ops ih =>
    intro s hinv hs
    cases op with
    | insert v =>
      obtain ⟨h1, e1, inv1, s1, _⟩ := Insert_inv s.heap v hinv
      obtain ⟨s2, e2, inv2, hs2, hc2⟩ :=
        ih { heap := h1, inserts := s.inserts + 1, extracts := s.extracts } inv1
          (by simp only [s1, hs]; push_cast; ring)
      refine ⟨s2, ?_, inv2, hs2, ?_⟩
      · simp only [runOps, e1, e2]
      · rw [hc2]; simp [Op.isInsert]; ring
    | extractMin =>
      by_cases hz : s.heap.size_ = 0
      · have e1 : s.heap.ExtractMin = some (Except.error emptyHeapError, s.heap) := by
          unfold BinomialHeap.ExtractMin
          rw [if_pos hz]
        obtain ⟨s2, e2, inv2, hs2, hc2⟩ :=
          ih { heap := s.heap, inserts := s.inserts, extracts := s.extracts } hinv hs
        refine ⟨s2, ?_, inv2, hs2, ?_⟩
        · simp only [runOps, e1, e2]
        · rw [hc2]; simp [Op.isInsert]
      · obtain ⟨j, t, h1, _, _, e1, inv1, s1, _⟩ := ExtractMin_inv s.heap hinv hz
        obtain ⟨s2, e2, inv2, hs2, hc2⟩ :=
          ih { heap := h1, inserts := s.inserts, extracts := s.extracts + 1 } inv1
            (by simp only [s1, hs]; push_cast; ring)
        refine ⟨s2, ?_, inv2, hs2, ?_⟩
        · simp only [runOps, e1, e2]
        · rw [hc2]; simp [Op.isInsert]

/-- C6: after any finite sequence of `Insert` and `ExtractMin` calls starting from the
empty heap (calls that throw included), the run is free of undefined behaviour, `size_`
equals the number of `Insert` calls minus the number of `ExtractMin` calls that succeeded,
and `size_` equals the number of values stored in the forest. -/
theorem C6_size_counts_calls (ops : List Op) :
    ∃ s, runOps ops {} = some s ∧ s.inserts = ops.countP Op.isInsert ∧
      s.heap.size_ = (s.inserts : Int) - (s.extracts : Int) ∧
      s.heap.size_ = (s.heap.values.length : Int) := by
  obtain ⟨s, e, inv, hs, hc⟩ := runOps_inv ops {} inv_default (by simp)
  exact ⟨s, e, by simpa using hc, hs, inv.1.length_values.symm⟩

/-- C7: in every heap reachable from the empty heap by `Insert` and successful
`ExtractMin` calls, slot `i` of `trees_` is occupied if and only if bit `i` of `size_` is
`1`, and `size_` (which is non-negative) is the sum of `2^i` over the occupied slots. -/
theorem C7_binary_correspondence (h : BinomialHeap) (hr : Reachable h) :
    0 ≤ h.size_ ∧
    (∀ i : Nat, (∃ t, h.trees_[i]? = some (some t)) ↔ h.size_.toNat.testBit i = true) ∧
    h.size_ = (occupiedSum h.trees_ : Int) := by
  have hw := (reachable_inv h hr).1
  refine ⟨by rw [hw.2]; positivity, ?_, hw.2⟩
  intro i
  rw [hw.size_eq, Int.toNat_ofNat, testBit_slotWeight, occupied_iff]

/-- Witness for C7: the heap after `Insert(4); Insert(2)` has size `2 = 0b10` and only
slot 1 occupied. -/
theorem C7_binary_correspondence_witness :
    Reachable sampleHeap ∧
    (0 ≤ sampleHeap.size_ ∧
    (∀ i : Nat, (∃ t, sampleHeap.trees_[i]? = some (some t)) ↔
      sampleHeap.size_.toNat.testBit i = true) ∧
    sampleHeap.size_ = (occupiedSum sampleHeap.trees_ : Int)) :=
  ⟨reachable_sampleHeap, C7_binary_correspondence sampleHeap reachable_sampleHeap⟩

theorem merge_values (a b : BinomialHeap) :
    ∃ r, a.MergeOtherHeap b = some r ∧
      (r.values : Multiset Int) = (a.values : Multiset Int) + (b.values : Multiset Int) :=
  ⟨mergeResult a b, MergeOtherHeap_eq a b, mergeResult_values a b⟩

/-- C8: for every two heaps `A` and `B` in which each occupied slot `i` holds a tree of
rank `i` (trees are values here, so the heaps share no node), `A.MergeOtherHeap(B)`
completes and the multiset of values stored in `A` afterwards is the multiset sum of the
values stored in `A` and in `B` before the call: the carry walk loses, duplicates and
invents no value.  (The proof does not need the rank hypotheses, see `merge_values`.) -/
theorem C8_merge_preserves_values (A B : BinomialHeap) (_hA : A.Ranked) (_hB : B.Ranked) :
    ∃ r, A.MergeOtherHeap B = some r ∧
      (r.values : Multiset Int) = (A.values : Multiset Int) + (B.values : Multiset Int) :=
  merge_values A B

/-- Witness for C8: merging the heap that holds `7` into the heap that holds `2, 4`. -/
theorem C8_merge_preserves_values_witness :
    sampleHeap.Ranked ∧ (BinomialHeap.ofTree (BinomialTree.ofValue 7)).Ranked ∧
    ∃ r, sampleHeap.MergeOtherHeap (BinomialHeap.ofTree (BinomialTree.ofValue 7)) = some r ∧
      (r.values : Multiset Int) = (sampleHeap.values : Multiset Int)
        + ((BinomialHeap.ofTree (BinomialTree.ofValue 7)).values : Multiset Int) :=
  ⟨⟨rfl, trivial⟩, ⟨rfl, trivial⟩,
    C8_merge_preserves_values sampleHeap (BinomialHeap.ofTree (BinomialTree.ofValue 7))
      ⟨rfl, trivial⟩ ⟨rfl, trivial⟩⟩

theorem slotsAll_getElem (P : Nat → BinomialTree → Prop) (l : List (Option BinomialTree))
    (hl : SlotsAll P 0 l) (i : Nat) (t : BinomialTree) (h : l[i]? = some (some t)) :
    P i t := by
  simpa using slotsAll_get P l 0 i t h hl

/-- C9: for every two well-formed heaps `A` and `B` (each occupied slot `i` holds a
binomial tree with `rank_ = i`, hence with `2^i` nodes, and `size_` is the sum of `2^i`
over the occupied slots), `A.MergeOtherHeap(B)` completes and leaves `A` well-formed with
`size_` the sum of the two sizes: each occupied slot `i` holds a binomial tree of rank `i`
with `2^i` nodes, no two slots hold trees of the same rank, and the occupied slots are
exactly the 1-bits of the summed size. -/
theorem C9_merge_well_formed (A B : BinomialHeap) (hA : A.WF) (hB : B.WF) :
    ∃ r, A.MergeOtherHeap B = some r ∧ r.WF ∧ r.size_ = A.size_ + B.size_ ∧
      (∀ (i : Nat) (t : BinomialTree), r.trees_[i]? = some (some t) →
        t.rank_ = i ∧ t.root_.IsBinomial i ∧ t.root_.values.length = 2 ^ i) ∧
      (∀ (i j : Nat) (t u : BinomialTree), r.trees_[i]? = some (some t) →
        r.trees_[j]? = some (some u) → t.rank_ = u.rank_ → i = j) ∧
      (∀ i : Nat, (∃ t, r.trees_[i]? = some (some t)) ↔
        (A.size_ + B.size_).toNat.testBit i = true) := by
  obtain ⟨hw, hs⟩ := mergeResult_wf A B hA hB
  have hslot : ∀ (i : Nat) (t : BinomialTree),
      (mergeResult A B).trees_[i]? = some (some t) → t.rank_ = i ∧ t.root_.IsBinomial i :=
    fun i t h => slotsAll_getElem TreeWF _ hw.1 i t h
  refine ⟨mergeResult A B, MergeOtherHeap_eq A B, hw, hs, ?_, ?_, ?_⟩
  · intro i t h
    exact ⟨(hslot i t h).1, (hslot i t h).2,
      Node.length_values_of_isBinomial _ _ (hslot i t h).2⟩
  · intro i j t u hi hj hr
    rw [← (hslot i t hi).1, ← (hslot j u hj).1, hr]
  · intro i
    rw [← hs, hw.size_eq, Int.toNat_ofNat, testBit_slotWeight, occupied_iff]

/-- Witness for C9: merging the heap that holds `7` into the heap that holds `2, 4`. -/
theorem C9_merge_well_formed_witness :
    sampleHeap.WF ∧ (BinomialHeap.ofTree (BinomialTree.ofValue 7)).WF ∧
    ∃ r, sampleHeap.MergeOtherHeap (BinomialHeap.ofTree (BinomialTree.ofValue 7)) = some r ∧
      r.WF ∧
      r.size_ = sampleHeap.size_ + (BinomialHeap.ofTree (BinomialTree.ofValue 7)).size_ ∧
      (∀ (i : Nat) (t : BinomialTree), r.trees_[i]? = some (some t) →
        t.rank_ = i ∧ t.root_.IsBinomial i ∧ t.root_.values.length = 2 ^ i) ∧
      (∀ (i j : Nat) (t u : BinomialTree), r.trees_[i]? = some (some t) →
        r.trees_[j]? = some (some u) → t.rank_ = u.rank_ → i = j) ∧
      (∀ i : Nat, (∃ t, r.trees_[i]? = some (some t)) ↔
        (sampleHeap.size_
          + (BinomialHeap.ofTree (BinomialTree.ofValue 7)).size_).toNat.testBit i = true) :=
  ⟨(reachable_inv _ reachable_sampleHeap).1, (inv_singleton 7).1,
    C9_merge_well_formed sampleHeap (BinomialHeap.ofTree (BinomialTree.ofValue 7))
      (reachable_inv _ reachable_sampleHeap).1 (inv_singleton 7).1⟩

theorem mergeResult_nil_size (a b : BinomialHeap) (hb : b.trees_ = [] → b.size_ = 0)
    (h : (mergeResult a b).trees_ = []) : (mergeResult a b).size_ = 0 := by
  unfold mergeResult at h ⊢
  split_ifs at h ⊢ with h1 h2 h3
  · exact hb h
  · rw [isEmpty_eq_true_iff] at h1
    exact absurd h h1
  · rw [isEmpty_eq_true_iff] at h2
    obtain ⟨o, os, ho⟩ := List.exists_cons_of_ne_nil h2
    simp only [ho] at h
    exact absurd h (walkPairs_ne_nil_left _ _ _ _)
  · rw [isEmpty_eq_true_iff] at h1
    obtain ⟨o, os, ho⟩ := List.exists_cons_of_ne_nil h1
    simp only [ho] at h
    exact absurd h (walkPairs_ne_nil_left _ _ _ _)

theorem ofTrees_nil_size (ts : List BinomialTree)
    (h : (BinomialHeap.ofTrees ts).trees_ = []) : (BinomialHeap.ofTrees ts).size_ = 0 := by
  simp only [BinomialHeap.ofTrees] at h ⊢
  rw [h]
  rfl

theorem ExtractMin_cases (h h1 : BinomialHeap) (r : Except String Int)
    (he : h.ExtractMin = some (r, h1)) :
    h1 = h ∨ ∃ (x : BinomialHeap) (ts : List BinomialTree),
      h1 = mergeResult x (BinomialHeap.ofTrees ts) := by
  unfold BinomialHeap.ExtractMin at he
  simp only [MergeOtherHeap_eq] at he
  split at he
  · left
    simp only [Option.some.injEq, Prod.mk.injEq] at he
    exact he.2.symm
  · right
    split at he
    · simp at he
    · split at he
      · simp at he
      · split at he
        · simp only [Option.some.injEq, Prod.mk.injEq] at he
          exact ⟨_, _, he.2.symm⟩
        · simp at he

theorem constructible_nil_size (h : BinomialHeap) (hc : Constructible h) :
    h.trees_ = [] → h.size_ = 0 := by
  induction hc with
  | default => intro _; rfl
  | ofTree t => intro he; simp [BinomialHeap.ofTree] at he
  | merge a b a1 _ _ he _ ihb =>
    rw [MergeOtherHeap_eq] at he
    cases he
    exact mergeResult_nil_size a b ihb
  | extractMin h h1 r _ he ih =>
    rcases ExtractMin_cases h h1 r he with e | ⟨x, ts, e⟩
    · rw [e]; exact ih
    · rw [e]; exact mergeResult_nil_size x _ (ofTrees_nil_size ts)

/-- C10: for every heap `H` that the class can produce, merging the default-constructed
empty heap (no slots, size `0`) into `H` completes and leaves the multiset of stored
values and `size_` of `H` unchanged (the heap is left exactly as it was). -/
theorem C10_merge_empty_heap (H : BinomialHeap) (hH : Constructible H) :
    ∃ r, H.MergeOtherHeap {} = some r ∧
      (r.values : Multiset Int) = (H.values : Multiset Int) ∧ r.size_ = H.size_ ∧
      r = H := by
  have hr : mergeResult H {} = H := by
    unfold mergeResult
    split_ifs with h1 h2 h3
    · rw [isEmpty_eq_true_iff] at h1
      have hs := constructible_nil_size H hH h1
      cases H
      simp only at h1 hs
      simp [h1, hs]
    · rfl
    · simp at h2
    · simp at h2
  exact ⟨mergeResult H {}, MergeOtherHeap_eq H {}, by rw [hr], by rw [hr], hr⟩

/-- Witness for C10: the heap constructed from the one-node tree holding `7`. -/
theorem C10_merge_empty_heap_witness :
    Constructible (BinomialHeap.ofTree (BinomialTree.ofValue 7)) ∧
    ∃ r, (BinomialHeap.ofTree (BinomialTree.ofValue 7)).MergeOtherHeap {} = some r ∧
      (r.values : Multiset Int)
        = ((BinomialHeap.ofTree (BinomialTree.ofValue 7)).values : Multiset Int) ∧
      r.size_ = (BinomialHeap.ofTree (BinomialTree.ofValue 7)).size_ ∧
      r = BinomialHeap.ofTree (BinomialTree.ofValue 7) :=
  ⟨Constructible.ofTree _,
    C10_merge_empty_heap (BinomialHeap.ofTree (BinomialTree.ofValue 7))
      (Constructible.ofTree _)⟩

/-- C11: union is commutative as multisets: for every two well-formed heaps `A` and `B`,
`A.MergeOtherHeap(B)` and `B.MergeOtherHeap(A)` both complete, and the heaps they leave
have the same multiset of values and the same `size_`. -/
theorem C11_merge_commutative (A B : BinomialHeap) (hA : A.WF) (hB : B.WF) :
    ∃ r1 r2, A.MergeOtherHeap B = some r1 ∧ B.MergeOtherHeap A = some r2 ∧
      (r1.values : Multiset Int) = (r2.values : Multiset Int) ∧ r1.size_ = r2.size_ := by
  refine ⟨mergeResult A B, mergeResult B A, MergeOtherHeap_eq A B, MergeOtherHeap_eq B A,
    ?_, ?_⟩
  · rw [mergeResult_values, mergeResult_values, add_comm]
  · rw [(mergeResult_wf A B hA hB).2, (mergeResult_wf B A hB hA).2, add_comm]

/-- Witness for C11: the heap that holds `2, 4` and the heap that holds `7`. -/
theorem C11_merge_commutative_witness :
    sampleHeap.WF ∧ (BinomialHeap.ofTree (BinomialTree.ofValue 7)).WF ∧
    ∃ r1 r2,
      sampleHeap.MergeOtherHeap (BinomialHeap.ofTree (BinomialTree.ofValue 7)) = some r1 ∧
      (BinomialHeap.ofTree (BinomialTree.ofValue 7)).MergeOtherHeap sampleHeap = some r2 ∧
      (r1.values : Multiset Int) = (r2.values : Multiset Int) ∧ r1.size_ = r2.size_ :=
  ⟨(reachable_inv _ reachable_sampleHeap).1, (inv_singleton 7).1,
    C11_merge_commutative sampleHeap (BinomialHeap.ofTree (BinomialTree.ofValue 7))
      (reachable_inv _ reachable_sampleHeap).1 (inv_singleton 7).1⟩

theorem occupiedRanks_singleton (t : BinomialTree) : occupiedRanks [some t] = [0] := by
  simp [occupiedRanks, occupied, List.range_succ]

/-- C13, as stated, fails: the heap constructed from a binomial tree of rank 1 has its
only occupied slot at index 0, not 1, and has size 1, not 2. -/
theorem C13_singleton_counterexample :
    TreeWF 1 sampleTree ∧
    occupiedRanks (BinomialHeap.ofTree sampleTree).trees_ = [0] ∧
    occupiedRanks (BinomialHeap.ofTree sampleTree).trees_ ≠ [sampleTree.rank_] ∧
    (BinomialHeap.ofTree sampleTree).size_ = 1 ∧
    (BinomialHeap.ofTree sampleTree).size_ ≠ 2 ^ sampleTree.rank_ := by
  refine ⟨⟨rfl, ?_⟩, occupiedRanks_singleton _, ?_, rfl, ?_⟩
  · simp [sampleTree, Node.IsBinomial, Node.IsBinomialList]
  · rw [BinomialHeap.ofTree, occupiedRanks_singleton]
    simp [sampleTree]
  · simp [BinomialHeap.ofTree, sampleTree]

/-- C13, amended: for every binomial tree `t` of rank 0 (a single node, as `Insert`
builds it), the heap constructed from `t` has exactly one occupied slot, located at index
`0`, the rank of `t`, and has size `1 = 2^0`. -/
theorem C13_singleton_rank_zero (t : BinomialTree) (ht : TreeWF 0 t) :
    occupiedRanks (BinomialHeap.ofTree t).trees_ = [t.rank_] ∧
    (BinomialHeap.ofTree t).size_ = 2 ^ t.rank_ ∧
    (BinomialHeap.ofTree t).WF := by
  have hr : t.rank_ = 0 := ht.1
  refine ⟨?_, ?_, ⟨?_, ?_⟩⟩
  · rw [hr, BinomialHeap.ofTree, occupiedRanks_singleton]
  · rw [hr]; rfl
  · simpa [BinomialHeap.ofTree, SlotsAll] using ht
  · simp [BinomialHeap.ofTree, occupiedSum, occupiedRanks_singleton]

/-- Witness for C13: the one-node tree holding `7`. -/
theorem C13_singleton_rank_zero_witness :
    TreeWF 0 (BinomialTree.ofValue 7) ∧
    (occupiedRanks (BinomialHeap.ofTree (BinomialTree.ofValue 7)).trees_
        = [(BinomialTree.ofValue 7).rank_] ∧
      (BinomialHeap.ofTree (BinomialTree.ofValue 7)).size_
        = 2 ^ (BinomialTree.ofValue 7).rank_ ∧
      (BinomialHeap.ofTree (BinomialTree.ofValue 7)).WF) :=
  ⟨⟨rfl, by simp [BinomialTree.ofValue, Node.IsBinomial, Node.IsBinomialList]⟩,
    C13_singleton_rank_zero (BinomialTree.ofValue 7)
      ⟨rfl, by simp [BinomialTree.ofValue, Node.IsBinomial, Node.IsBinomialList]⟩⟩

/-- C14: inserting `5, 3, 8, 1, 9, 2` in that order into the empty heap gives size 6 with
occupied slots exactly `{1, 2}`; six successive `ExtractMin` calls then return
`1, 2, 3, 5, 8, 9` in that order, the size going `6, 5, 4, 3, 2, 1, 0`, and a seventh
`ExtractMin` throws the empty-heap error (and leaves the heap as it is). -/
theorem C14_scenario :
    ∃ h6 h5 h4 h3 h2 h1 h0 : BinomialHeap,
      insertAll [5, 3, 8, 1, 9, 2] {} = some h6 ∧
      h6.size_ = 6 ∧ occupiedRanks h6.trees_ = [1, 2] ∧
      h6.ExtractMin = some (Except.ok 1, h5) ∧ h5.size_ = 5 ∧
      h5.ExtractMin = some (Except.ok 2, h4) ∧ h4.size_ = 4 ∧
      h4.ExtractMin = some (Except.ok 3, h3) ∧ h3.size_ = 3 ∧
      h3.ExtractMin = some (Except.ok 5, h2) ∧ h2.size_ = 2 ∧
      h2.ExtractMin = some (Except.ok 8, h1) ∧ h1.size_ = 1 ∧
      h1.ExtractMin = some (Except.ok 9, h0) ∧ h0.size_ = 0 ∧
      h0.ExtractMin = some (Except.error "Try to extract from empty heap!", h0) :=
  ⟨_, _, _, _, _, _, _, rfl, rfl, rfl, rfl, rfl, rfl, rfl, rfl, rfl, rfl, rfl, rfl, rfl,
    rfl, rfl, rfl⟩

theorem mergeBinomialTrees_of_not_lt (left right : BinomialTree)
    (h : ¬ left.GetRootValue < right.GetRootValue) :
    MergeBinomialTrees left right = right.MergeOtherTree left := by
  unfold MergeBinomialTrees
  rw [if_neg h]

theorem mergeBinomialTrees_of_lt (left right : BinomialTree)
    (h : left.GetRootValue < right.GetRootValue) :
    MergeBinomialTrees left right = left.MergeOtherTree right := by
  unfold MergeBinomialTrees
  rw [if_pos h]

/-- C15, as stated, fails: for two rank-1 trees with the same root value `1`,
`MergeBinomialTrees(left, right)` returns `right` with the root of `left` appended as its
last child, which is not `left` with the root of `right` appended. -/
theorem C15_tie_break_counterexample :
    sampleTreeLeft.GetRootValue = sampleTreeRight.GetRootValue ∧
    MergeBinomialTrees sampleTreeLeft sampleTreeRight
      = sampleTreeRight.MergeOtherTree sampleTreeLeft ∧
    MergeBinomialTrees sampleTreeLeft sampleTreeRight
      ≠ sampleTreeLeft.MergeOtherTree sampleTreeRight := by
  refine ⟨rfl, rfl, ?_⟩
  intro h
  have h1 := congrArg (fun t => t.root_.values) h
  have h2 : (MergeBinomialTrees sampleTreeLeft sampleTreeRight).root_.values
      = [1, 7, 1, 5] := rfl
  have h3 : (sampleTreeLeft.MergeOtherTree sampleTreeRight).root_.values
      = [1, 5, 1, 7] := rfl
  simp only [h2, h3] at h1
  exact absurd h1 (by decide)

/-- C15, amended: in `MergeBinomialTrees(left, right)`, when the two root values are
equal the right operand wins: the returned tree is `right` with the root of `left`
appended as its last child (`right` becomes the parent), its rank one more than that of
`right`. -/
theorem C15_tie_break_right_wins (left right : BinomialTree)
    (h : left.GetRootValue = right.GetRootValue) :
    MergeBinomialTrees left right = right.MergeOtherTree left ∧
    (MergeBinomialTrees left right).root_
      = Node.mk right.root_.value (right.root_.children_ ++ [left.root_]) ∧
    (MergeBinomialTrees left right).rank_ = right.rank_ + 1 := by
  have e := mergeBinomialTrees_of_not_lt left right (by rw [h]; exact lt_irrefl _)
  rw [e]
  exact ⟨rfl, rfl, rfl⟩

/-- Witness for C15: the two rank-1 trees with root value `1`. -/
theorem C15_tie_break_right_wins_witness :
    sampleTreeLeft.GetRootValue = sampleTreeRight.GetRootValue ∧
    (MergeBinomialTrees sampleTreeLeft sampleTreeRight
        = sampleTreeRight.MergeOtherTree sampleTreeLeft ∧
      (MergeBinomialTrees sampleTreeLeft sampleTreeRight).root_
        = Node.mk sampleTreeRight.root_.value
            (sampleTreeRight.root_.children_ ++ [sampleTreeLeft.root_]) ∧
      (MergeBinomialTrees sampleTreeLeft sampleTreeRight).rank_
        = sampleTreeRight.rank_ + 1) :=
  ⟨rfl, C15_tie_break_right_wins sampleTreeLeft sampleTreeRight rfl⟩

theorem mergeOtherTree_shape (w l : BinomialTree) :
    (w.MergeOtherTree l).root_ = Node.mk w.root_.value (w.root_.children_ ++ [l.root_]) ∧
    (w.MergeOtherTree l).rank_ = w.rank_ + 1 ∧
    (∀ i, i < w.root_.children_.length →
      (w.MergeOtherTree l).root_.children_[i]? = w.root_.children_[i]?) ∧
    (w.MergeOtherTree l).root_.children_[w.root_.children_.length]? = some l.root_ ∧
    (w.MergeOtherTree l).root_.children_.length = w.root_.children_.length + 1 := by
  refine ⟨rfl, rfl, ?_, ?_, ?_⟩
  · intro i hi
    show (w.root_.children_ ++ [l.root_])[i]? = w.root_.children_[i]?
    rw [List.getElem?_append_left hi]
  · show (w.root_.children_ ++ [l.root_])[w.root_.children_.length]? = some l.root_
    rw [List.getElem?_append_right (le_refl _)]
    simp
  · show (w.root_.children_ ++ [l.root_]).length = w.root_.children_.length + 1
    simp

/-- C16: for every two trees `a` and `b` of equal rank `r` with different root values,
`MergeBinomialTrees(a, b)` returns the tree whose root is the one with the strictly
smaller root value (the winner), with the root of the other tree appended as its new last
child and with rank `r + 1`; every child the winner already had is unchanged and keeps
its position.  If `a` and `b` are heap-ordered binomial trees of rank `r`, the result is
a heap-ordered binomial tree of rank `r + 1` with `2^(r+1)` nodes. -/
theorem C16_merge_trees (a b : BinomialTree) (r : Nat) (ha : a.rank_ = r) (hb : b.rank_ = r)
    (hne : a.GetRootValue ≠ b.GetRootValue) :
    ∃ winner loser : BinomialTree,
      ((winner = a ∧ loser = b) ∨ (winner = b ∧ loser = a)) ∧
      winner.GetRootValue < loser.GetRootValue ∧
      (MergeBinomialTrees a b).root_
        = Node.mk winner.root_.value (winner.root_.children_ ++ [loser.root_]) ∧
      (MergeBinomialTrees a b).rank_ = r + 1 ∧
      (∀ i, i < winner.root_.children_.length →
        (MergeBinomialTrees a b).root_.children_[i]? = winner.root_.children_[i]?) ∧
      (MergeBinomialTrees a b).root_.children_[winner.root_.children_.length]?
        = some loser.root_ ∧
      (MergeBinomialTrees a b).root_.children_.length
        = winner.root_.children_.length + 1 ∧
      (TreeWF r a → TreeWF r b → a.root_.HeapOrdered → b.root_.HeapOrdered →
        TreeWF (r + 1) (MergeBinomialTrees a b) ∧
        (MergeBinomialTrees a b).root_.HeapOrdered ∧
        (MergeBinomialTrees a b).root_.values.length = 2 ^ (r + 1)) := by
  have hfinal : TreeWF r a → TreeWF r b → a.root_.HeapOrdered → b.root_.HeapOrdered →
      TreeWF (r + 1) (MergeBinomialTrees a b) ∧
      (MergeBinomialTrees a b).root_.HeapOrdered ∧
      (MergeBinomialTrees a b).root_.values.length = 2 ^ (r + 1) := by
    intro wa wb oa ob
    have hw := mergeBinomialTrees_wf r a b wa wb
    exact ⟨hw, mergeBinomialTrees_ordered r a b oa ob,
      Node.length_values_of_isBinomial _ _ hw.2⟩
  by_cases hlt : a.GetRootValue < b.GetRootValue
  · have e := mergeBinomialTrees_of_lt a b hlt
    obtain ⟨s1, s2, s3, s4, s5⟩ := mergeOtherTree_shape a b
    refine ⟨a, b, Or.inl ⟨rfl, rfl⟩, hlt, ?_, ?_, ?_, ?_, ?_, hfinal⟩
    · rw [e]; exact s1
    · rw [e, s2, ha]
    · rw [e]; exact s3
    · rw [e]; exact s4
    · rw [e]; exact s5
  · have e := mergeBinomialTrees_of_not_lt a b hlt
    obtain ⟨s1, s2, s3, s4, s5⟩ := mergeOtherTree_shape b a
    have hlt2 : b.GetRootValue < a.GetRootValue :=
      lt_of_le_of_ne (not_lt.mp hlt) (fun h => hne h.symm)
    refine ⟨b, a, Or.inr ⟨rfl, rfl⟩, hlt2, ?_, ?_, ?_, ?_, ?_, hfinal⟩
    · rw [e]; exact s1
    · rw [e, s2, hb]
    · rw [e]; exact s3
    · rw [e]; exact s4
    · rw [e]; exact s5

/-- Witness for C16: the rank-1 tree holding `2, 4` and the rank-1 tree holding `1, 5`. -/
theorem C16_merge_trees_witness :
    sampleTree.rank_ = 1 ∧ sampleTreeLeft.rank_ = 1 ∧
    sampleTree.GetRootValue ≠ sampleTreeLeft.GetRootValue ∧
    ∃ winner loser : BinomialTree,
      ((winner = sampleTree ∧ loser = sampleTreeLeft) ∨
        (winner = sampleTreeLeft ∧ loser = sampleTree)) ∧
      winner.GetRootValue < loser.GetRootValue ∧
      (MergeBinomialTrees sampleTree sampleTreeLeft).root_
        = Node.mk winner.root_.value (winner.root_.children_ ++ [loser.root_]) ∧
      (MergeBinomialTrees sampleTree sampleTreeLeft).rank_ = 1 + 1 ∧
      (∀ i, i < winner.root_.children_.length →
        (MergeBinomialTrees sampleTree sampleTreeLeft).root_.children_[i]?
          = winner.root_.children_[i]?) ∧
      (MergeBinomialTrees sampleTree sampleTreeLeft).root_.children_[
          winner.root_.children_.length]? = some loser.root_ ∧
      (MergeBinomialTrees sampleTree sampleTreeLeft).root_.children_.length
        = winner.root_.children_.length + 1 ∧
      (TreeWF 1 sampleTree → TreeWF 1 sampleTreeLeft → sampleTree.root_.HeapOrdered →
        sampleTreeLeft.root_.HeapOrdered →
        TreeWF (1 + 1) (MergeBinomialTrees sampleTree sampleTreeLeft) ∧
        (MergeBinomialTrees sampleTree sampleTreeLeft).root_.HeapOrdered ∧
        (MergeBinomialTrees sampleTree sampleTreeLeft).root_.values.length = 2 ^ (1 + 1)) :=
  ⟨rfl, rfl, by decide, C16_merge_trees sampleTree sampleTreeLeft 1 rfl rfl (by decide)⟩

theorem getElem?_childTreesFrom (cs : List Node) (k i : Nat) :
    (childTreesFrom k cs)[i]?
      = cs[i]?.map fun c => ({ root_ := c, rank_ := k + i } : BinomialTree) := by
  induction cs generalizing k i with
  | nil => simp [childTreesFrom]
  | cons c cs ih =>
    cases i with
    | zero => simp [childTreesFrom]
    | succ i =>
      simp only [childTreesFrom, List.getElem?_cons_succ, ih]
      have e : k + 1 + i = k + (i + 1) := by omega
      rw [e]

theorem isBinomialList_getElem (cs : List Node) (k i : Nat) (c : Node)
    (h : Node.IsBinomialList cs k) (hc : cs[i]? = some c) : c.IsBinomial (k + i) := by
  induction cs generalizing k i with
  | nil => simp at hc
  | cons d cs ih =>
    simp only [Node.IsBinomialList] at h
    cases i with
    | zero =>
      simp only [List.getElem?_cons_zero, Option.some.injEq] at hc
      rw [← hc]; exact h.1
    | succ i =>
      simp only [List.getElem?_cons_succ] at hc
      have := ih (k + 1) i h.2 hc
      have e : k + 1 + i = k + (i + 1) := by omega
      rwa [e] at this

/-- C17: for every well-formed binomial tree of rank `r`, `GetChildrenAsTrees` returns
exactly `r` trees in storage order, the `i`-th being the `i`-th child with `rank_` set to
`i` and itself a well-formed binomial tree of rank `i`; the heap built from them by the
forest constructor places tree `i` at slot `i` and has size `2^r - 1`, which is the number
of nodes it holds. -/
theorem C17_children_as_trees (t : BinomialTree) (r : Nat) (ht : TreeWF r t) :
    t.GetChildrenAsTrees.length = r ∧
    (∀ i, i < r → ∃ c, t.root_.children_[i]? = some c ∧
      t.GetChildrenAsTrees[i]? = some { root_ := c, rank_ := i } ∧
      TreeWF i { root_ := c, rank_ := i } ∧
      (BinomialHeap.ofTrees t.GetChildrenAsTrees).trees_[i]?
        = some (some { root_ := c, rank_ := i })) ∧
    (BinomialHeap.ofTrees t.GetChildrenAsTrees).trees_.length = r ∧
    (BinomialHeap.ofTrees t.GetChildrenAsTrees).size_ = 2 ^ r - 1 ∧
    (BinomialHeap.ofTrees t.GetChildrenAsTrees).size_
      = ((BinomialHeap.ofTrees t.GetChildrenAsTrees).values.length : Int) ∧
    (BinomialHeap.ofTrees t.GetChildrenAsTrees).WF := by
  obtain ⟨nwf, nsize, nlen, _⟩ := ofTrees_children_facts t r ht
  have hshape := (Node.isBinomial_iff _ _).mp ht.2
  refine ⟨?_, ?_, nlen, ?_, nwf.length_values.symm, nwf⟩
  · rw [BinomialTree.GetChildrenAsTrees, length_childTreesFrom, hshape.1]
  · intro i hi
    have hlt : i < t.root_.children_.length := by rw [hshape.1]; exact hi
    refine ⟨t.root_.children_[i], List.getElem?_eq_getElem hlt, ?_, ⟨rfl, ?_⟩, ?_⟩
    · rw [BinomialTree.GetChildrenAsTrees, getElem?_childTreesFrom,
        List.getElem?_eq_getElem hlt]
      simp
    · have := isBinomialList_getElem _ 0 i _ hshape.2 (List.getElem?_eq_getElem hlt)
      simpa using this
    · simp only [BinomialHeap.ofTrees, BinomialTree.GetChildrenAsTrees, List.getElem?_map,
        getElem?_childTreesFrom, List.getElem?_eq_getElem hlt]
      simp
  · rw [nsize]; push_cast; rfl

/-- Witness for C17: the rank-1 tree holding `2` above `4`. -/
theorem C17_children_as_trees_witness :
    TreeWF 1 sampleTree ∧
    (sampleTree.GetChildrenAsTrees.length = 1 ∧
    (∀ i, i < 1 → ∃ c, sampleTree.root_.children_[i]? = some c ∧
      sampleTree.GetChildrenAsTrees[i]? = some { root_ := c, rank_ := i } ∧
      TreeWF i { root_ := c, rank_ := i } ∧
      (BinomialHeap.ofTrees sampleTree.GetChildrenAsTrees).trees_[i]?
        = some (some { root_ := c, rank_ := i })) ∧
    (BinomialHeap.ofTrees sampleTree.GetChildrenAsTrees).trees_.length = 1 ∧
    (BinomialHeap.ofTrees sampleTree.GetChildrenAsTrees).size_ = 2 ^ 1 - 1 ∧
    (BinomialHeap.ofTrees sampleTree.GetChildrenAsTrees).size_
      = ((BinomialHeap.ofTrees sampleTree.GetChildrenAsTrees).values.length : Int) ∧
    (BinomialHeap.ofTrees sampleTree.GetChildrenAsTrees).WF) :=
  ⟨⟨rfl, by simp [sampleTree, Node.IsBinomial, Node.IsBinomialList]⟩,
    C17_children_as_trees sampleTree 1
      ⟨rfl, by simp [sampleTree, Node.IsBinomial, Node.IsBinomialList]⟩⟩

mutual
theorem Node.nodes_map_value : ∀ (n : Node), n.nodes.map Node.value = n.values
  | .mk v cs => by
    simp only [Node.nodes, Node.values, List.map_cons, Node.value]
    rw [Node.nodesList_map_value cs]
theorem Node.nodesList_map_value : ∀ (cs : List Node),
    (Node.nodesList cs).map Node.value = Node.valuesList cs
  | [] => by simp [Node.nodesList, Node.valuesList]
  | c :: cs => by
    simp only [Node.nodesList, Node.valuesList, List.map_append]
    rw [Node.nodes_map_value c, Node.nodesList_map_value cs]
end

theorem Node.length_nodes (n : Node) : n.nodes.length = n.values.length := by
  rw [← Node.nodes_map_value, List.length_map]

mutual
theorem Node.isBinomial_of_mem_nodes : ∀ (n : Node) (k : Nat), n.IsBinomial k →
    ∀ m ∈ n.nodes, m.IsBinomial m.children_.length
  | .mk v cs, k, h, m, hm => by
    simp only [Node.nodes, List.mem_cons] at hm
    simp only [Node.IsBinomial] at h
    rcases hm with rfl | hm
    · simp only [Node.IsBinomial, Node.children_]
      exact ⟨trivial, h.2⟩
    · exact Node.isBinomial_of_mem_nodesList cs 0 h.2 m hm
theorem Node.isBinomial_of_mem_nodesList : ∀ (cs : List Node) (j : Nat),
    Node.IsBinomialList cs j → ∀ m ∈ Node.nodesList cs, m.IsBinomial m.children_.length
  | [], _, _, m, hm => by simp [Node.nodesList] at hm
  | c :: cs, j, h, m, hm => by
    simp only [Node.nodesList, List.mem_append] at hm
    simp only [Node.IsBinomialList] at h
    rcases hm with hm | hm
    · exact Node.isBinomial_of_mem_nodes c j h.1 m hm
    · exact Node.isBinomial_of_mem_nodesList cs (j + 1) h.2 m hm
end

theorem Node.shape_of_isBinomial (n : Node) (k : Nat) (h : n.IsBinomial k) :
    n.children_.length = k ∧
    (∀ (j : Nat) (c : Node), n.children_[j]? = some c → c.children_.length = j) ∧
    n.nodes.length = 2 ^ k := by
  have hs := (Node.isBinomial_iff n k).mp h
  refine ⟨hs.1, ?_, ?_⟩
  · intro j c hc
    have := isBinomialList_getElem _ 0 j c hs.2 hc
    rw [Nat.zero_add] at this
    exact ((Node.isBinomial_iff c j).mp this).1
  · rw [Node.length_nodes, Node.length_values_of_isBinomial n k h]

/-- C18: in every heap reachable from the empty heap by `Insert` and successful
`ExtractMin` calls, every occupied slot `i` holds a tree with `rank_ = i` whose root has
`i` children, and every node of that tree satisfies the binomial shape invariant: a node
with `k` children has its `j`-th child (0-indexed) carrying exactly `j` children, and
owns exactly `2^k` nodes in total. -/
theorem C18_binomial_shape (h : BinomialHeap) (hr : Reachable h) :
    ∀ (i : Nat) (t : BinomialTree), h.trees_[i]? = some (some t) →
      t.rank_ = i ∧ t.root_.children_.length = i ∧ t.root_.IsBinomial i ∧
      ∀ n ∈ t.root_.nodes,
        (∀ (j : Nat) (c : Node), n.children_[j]? = some c → c.children_.length = j) ∧
        n.nodes.length = 2 ^ n.children_.length := by
  intro i t ht
  have hw : TreeWF i t := slotsAll_getElem TreeWF _ (reachable_inv h hr).1.1 i t ht
  refine ⟨hw.1, (Node.shape_of_isBinomial _ _ hw.2).1, hw.2, ?_⟩
  intro n hn
  have hb := Node.isBinomial_of_mem_nodes _ _ hw.2 n hn
  exact (Node.shape_of_isBinomial _ _ hb).2

/-- Witness for C18: the heap after `Insert(4); Insert(2)`. -/
theorem C18_binomial_shape_witness :
    Reachable sampleHeap ∧
    ∀ (i : Nat) (t : BinomialTree), sampleHeap.trees_[i]? = some (some t) →
      t.rank_ = i ∧ t.root_.children_.length = i ∧ t.root_.IsBinomial i ∧
      ∀ n ∈ t.root_.nodes,
        (∀ (j : Nat) (c : Node), n.children_[j]? = some c → c.children_.length = j) ∧
        n.nodes.length = 2 ^ n.children_.length :=
  ⟨reachable_sampleHeap, C18_binomial_shape sampleHeap reachable_sampleHeap⟩

mutual
theorem Node.heapOrdered_of_mem_nodes : ∀ (n : Node), n.HeapOrdered →
    ∀ m ∈ n.nodes, m.HeapOrdered
  | .mk v cs, h, m, hm => by
    simp only [Node.nodes, List.mem_cons] at hm
    rcases hm with rfl | hm
    · exact h
    · simp only [Node.HeapOrdered] at h
      exact Node.heapOrdered_of_mem_nodesList v cs h m hm
theorem Node.heapOrdered_of_mem_nodesList : ∀ (v : Int) (cs : List Node),
    Node.HeapOrderedList v cs → ∀ m ∈ Node.nodesList cs, m.HeapOrdered
  | _, [], _, m, hm => by simp [Node.nodesList] at hm
  | v, c :: cs, h, m, hm => by
    simp only [Node.nodesList, List.mem_append] at hm
    simp only [Node.HeapOrderedList] at h
    rcases hm with hm | hm
    · exact Node.heapOrdered_of_mem_nodes c h.2.1 m hm
    · exact Node.heapOrdered_of_mem_nodesList v cs h.2.2 m hm
end

theorem Node.heapOrderedList_mem (v : Int) (cs : List Node)
    (h : Node.HeapOrderedList v cs) : ∀ c ∈ cs, v ≤ c.value := by
  induction cs with
  | nil => intro c hc; simp at hc
  | cons d cs ih =>
    simp only [Node.HeapOrderedList] at h
    intro c hc
    rcases List.mem_cons.mp hc with rfl | hc
    · exact h.1
    · exact ih h.2.2 c hc

theorem Node.le_children_of_heapOrdered (n : Node) (h : n.HeapOrdered) :
    ∀ m ∈ n.nodes, ∀ c ∈ m.children_, m.value ≤ c.value := by
  intro m hm c hc
  have hmo := Node.heapOrdered_of_mem_nodes n h m hm
  rw [Node.heapOrdered_iff] at hmo
  exact Node.heapOrderedList_mem _ _ hmo c hc

/-- C19: in every heap reachable from the empty heap by `Insert` and successful
`ExtractMin` calls, every tree is min-heap-ordered (no node has a value greater than the
value of one of its children); hence, when the heap stores a value at all, the minimum
stored value is the root value of some occupied slot. -/
theorem C19_heap_ordered (h : BinomialHeap) (hr : Reachable h) :
    (∀ (i : Nat) (t : BinomialTree), h.trees_[i]? = some (some t) →
      t.root_.HeapOrdered ∧
      ∀ n ∈ t.root_.nodes, ∀ c ∈ n.children_, n.value ≤ c.value) ∧
    (h.values ≠ [] → ∃ (i : Nat) (t : BinomialTree), h.trees_[i]? = some (some t) ∧
      t.GetRootValue ∈ h.values ∧ ∀ v ∈ h.values, t.GetRootValue ≤ v) := by
  have hinv := reachable_inv h hr
  constructor
  · intro i t ht
    have ho : t.root_.HeapOrdered := slotsAll_getElem TreeOrdered _ hinv.2.1 i t ht
    exact ⟨ho, Node.le_children_of_heapOrdered _ ho⟩
  · intro hne
    have hs : h.size_ ≠ 0 := by
      intro hz
      have hl := hinv.1.length_values
      rw [hz] at hl
      exact hne (List.length_eq_zero.mp (by exact_mod_cast hl))
    obtain ⟨j, t, h1, _, hget, _, _, _, hmin, hv⟩ := ExtractMin_inv h hinv hs
    refine ⟨j, t, hget, ?_, hmin⟩
    have : t.GetRootValue ∈ (h.values : Multiset Int) := by
      rw [hv]; exact Multiset.mem_cons_self _ _
    exact Multiset.mem_coe.mp this

/-- Witness for C19: the heap after `Insert(4); Insert(2)`. -/
theorem C19_heap_ordered_witness :
    Reachable sampleHeap ∧
    ((∀ (i : Nat) (t : BinomialTree), sampleHeap.trees_[i]? = some (some t) →
      t.root_.HeapOrdered ∧
      ∀ n ∈ t.root_.nodes, ∀ c ∈ n.children_, n.value ≤ c.value) ∧
    (sampleHeap.values ≠ [] → ∃ (i : Nat) (t : BinomialTree),
      sampleHeap.trees_[i]? = some (some t) ∧
      t.GetRootValue ∈ sampleHeap.values ∧ ∀ v ∈ sampleHeap.values, t.GetRootValue ≤ v)) :=
  ⟨reachable_sampleHeap, C19_heap_ordered sampleHeap reachable_sampleHeap⟩

theorem lastOccupied_iff_getLast? (l : List (Option BinomialTree)) :
    LastOccupied l ↔ ∃ t, l.getLast? = some (some t) := by
  constructor
  · intro h
    obtain ⟨t, ht⟩ := lastOccupied_get l h
    exact ⟨t, by rw [List.getLast?_eq_getElem?]; exact ht⟩
  · rintro ⟨t, ht⟩
    obtain ⟨ys, hys⟩ := List.getLast?_eq_some_iff.mp ht
    rw [hys]
    clear hys ht
    induction ys with
    | nil => simp [LastOccupied]
    | cons y ys ih =>
      rw [List.cons_append, lastOccupied_cons _ _ (by simp)]
      exact ih

theorem popBack_branch_iff (l : List (Option BinomialTree)) (j : Nat) (t : BinomialTree)
    (hget : l[j]? = some (some t)) (hlast : LastOccupied l) :
    ((2 ^ j : Nat) : Int) > (slotWeight 0 l : Int) - ((2 ^ j : Nat) : Int)
      ↔ j + 1 = l.length := by
  have hjlt : j < l.length := by
    by_contra hc
    rw [List.getElem?_eq_none (not_lt.mp hc)] at hget
    exact absurd hget (by simp)
  have hne : l ≠ [] := by
    intro he; rw [he] at hjlt; simp at hjlt
  have hw := slotWeight_set l 0 j t hget
  rw [Nat.zero_add] at hw
  constructor
  · intro hcond
    by_contra hj
    have hj2 : j + 1 < l.length := by omega
    obtain ⟨u, hu⟩ := lastOccupied_get l hlast
    have hu2 : (l.set j none)[l.length - 1]? = some (some u) := by
      rw [List.getElem?_set_ne (by omega)]
      exact hu
    have hw2 := slotWeight_set (l.set j none) 0 (l.length - 1) u hu2
    rw [Nat.zero_add] at hw2
    have hpow : 2 ^ (j + 1) ≤ 2 ^ (l.length - 1) :=
      Nat.pow_le_pow_right (by norm_num) (by omega)
    rw [pow_succ] at hpow
    rw [hw] at hcond
    push_cast at hcond
    have : (2 ^ j * 2 : Int) ≤ (slotWeight 0 (l.set j none) : Int) := by
      have : 2 ^ j * 2 ≤ slotWeight 0 (l.set j none) := by omega
      exact_mod_cast this
    have h0 : (0 : Int) < 2 ^ j := by positivity
    linarith
  · intro hj
    have hj2 : l.length - 1 = j := by omega
    have hd := dropLast_append_none l hne
    rw [hj2] at hd
    have hwd : slotWeight 0 (l.set j none) = slotWeight 0 l.dropLast := by
      rw [← hd, slotWeight_append_none]
    have hlt := slotWeight_lt l.dropLast 0
    rw [List.length_dropLast, hj2, Nat.zero_add] at hlt
    rw [hw, hwd]
    push_cast
    have : (slotWeight 0 l.dropLast : Int) < 2 ^ j := by exact_mod_cast hlt
    linarith

/-- C20: in every heap reachable from the empty heap by `Insert` and successful
`ExtractMin` calls, `trees_` is empty or its last slot is occupied (no trailing empty
slot), and `size_ == 0` exactly when `trees_` is empty.  Consequently, for the tree
`min_tree` of an occupied slot `j`, `ExtractMin` takes the branch
`min_tree->GetSize() > size_` (with `size_` already decremented) exactly when `j` is the
last slot, so `trees_.pop_back()` removes exactly that tree and no other one. -/
theorem C20_no_trailing_empty_slot (h : BinomialHeap) (hr : Reachable h) :
    (h.trees_ = [] ∨ ∃ t, h.trees_.getLast? = some (some t)) ∧
    (h.size_ = 0 ↔ h.trees_ = []) ∧
    (∀ (j : Nat) (min_tree : BinomialTree), h.trees_[j]? = some (some min_tree) →
      (min_tree.GetSize > h.size_ - min_tree.GetSize ↔ j + 1 = h.trees_.length) ∧
      (min_tree.GetSize > h.size_ - min_tree.GetSize →
        h.trees_.dropLast ++ [some min_tree] = h.trees_)) := by
  obtain ⟨hwf, _, htrim⟩ := reachable_inv h hr
  have hW := hwf.size_eq
  refine ⟨?_, ?_, ?_⟩
  · rcases htrim with he | hl
    · exact Or.inl he
    · exact Or.inr ((lastOccupied_iff_getLast? _).mp hl)
  · constructor
    · intro hz
      rcases htrim with he | hl
      · exact he
      · obtain ⟨u, hu⟩ := lastOccupied_get _ hl
        have hw := slotWeight_set h.trees_ 0 _ u hu
        have hp : 0 < 2 ^ (0 + (h.trees_.length - 1)) := by positivity
        rw [hW] at hz
        have : slotWeight 0 h.trees_ = 0 := by exact_mod_cast hz
        omega
    · exact hwf.size_of_nil
  · intro j t hget
    have hlast : LastOccupied h.trees_ := by
      rcases htrim with he | hl
      · rw [he] at hget; simp at hget
      · exact hl
    have hrank : t.rank_ = j :=
      (slotsAll_getElem TreeWF _ hwf.1 j t hget).1
    have hiff : t.GetSize > h.size_ - t.GetSize ↔ j + 1 = h.trees_.length := by
      rw [getSize_eq, hrank, hW]
      exact popBack_branch_iff h.trees_ j t hget hlast
    refine ⟨hiff, ?_⟩
    intro hcond
    have hj := hiff.mp hcond
    apply List.dropLast_append_getLast?
    rw [List.getLast?_eq_getElem?]
    have e : h.trees_.length - 1 = j := by omega
    rw [e]
    exact hget

/-- Witness for C20: the heap after `Insert(4); Insert(2)`. -/
theorem C20_no_trailing_empty_slot_witness :
    Reachable sampleHeap ∧
    ((sampleHeap.trees_ = [] ∨ ∃ t, sampleHeap.trees_.getLast? = some (some t)) ∧
    (sampleHeap.size_ = 0 ↔ sampleHeap.trees_ = []) ∧
    (∀ (j : Nat) (min_tree : BinomialTree),
      sampleHeap.trees_[j]? = some (some min_tree) →
      (min_tree.GetSize > sampleHeap.size_ - min_tree.GetSize
        ↔ j + 1 = sampleHeap.trees_.length) ∧
      (min_tree.GetSize > sampleHeap.size_ - min_tree.GetSize →
        sampleHeap.trees_.dropLast ++ [some min_tree] = sampleHeap.trees_))) :=
  ⟨reachable_sampleHeap, C20_no_trailing_empty_slot sampleHeap reachable_sampleHeap⟩

/-! ## `MergeOtherHeap` on objects: it completes, and it writes the receiver only -/

theorem forLoop_total {σ : Type} (body : Nat → σ → Option σ) (P : σ → Prop) (hi : Nat)
    (hstep : ∀ i s, i < hi → P s → ∃ s1, body i s = some s1 ∧ P s1) :
    ∀ (count lo : Nat) (s : σ), lo + count ≤ hi → P s →
      ∃ s1, forLoop body count lo s = some s1 ∧ P s1 := by
  intro count
  induction count with
  | zero => intro lo s _ hs; exact ⟨s, rfl, hs⟩
  | succ n ih =>
    intro lo s hle hs
    obtain ⟨s1, e1, h1⟩ := hstep lo s (by omega) hs
    obtain ⟨s2, e2, h2⟩ := ih (lo + 1) s1 (by omega) h1
    exact ⟨s2, by simp only [forLoop, e1, Option.some_bind, e2], h2⟩

theorem mergeOtherTreeMem_total (nodes : List NodeCell) (w l : TreeObj)
    (hw : w.Valid nodes.length) :
    ∃ nodes1 r, w.MergeOtherTree nodes l = some (nodes1, r) ∧
      nodes1.length = nodes.length ∧ r.Valid nodes.length := by
  obtain ⟨a, ha, hlt⟩ := hw
  unfold TreeObj.MergeOtherTree
  rw [ha]
  simp only [List.getElem?_eq_getElem hlt]
  exact ⟨_, _, rfl, by simp, ⟨a, rfl, hlt⟩⟩

theorem getRootValue_total (nodes : List NodeCell) (t : TreeObj)
    (ht : t.Valid nodes.length) : ∃ v, t.GetRootValue nodes = some v := by
  obtain ⟨a, ha, hlt⟩ := ht
  unfold TreeObj.GetRootValue
  rw [ha]
  simp only [List.getElem?_eq_getElem hlt]
  exact ⟨_, rfl⟩

theorem mergeBinomialTreesMem_total (nodes : List NodeCell) (a b : TreeObj)
    (ha : a.Valid nodes.length) (hb : b.Valid nodes.length) :
    ∃ p, MergeBinomialTreesMem nodes a b = some p ∧
      p.1.length = nodes.length ∧ p.2.Valid nodes.length := by
  obtain ⟨va, ea⟩ := getRootValue_total nodes a ha
  obtain ⟨vb, eb⟩ := getRootValue_total nodes b hb
  unfold MergeBinomialTreesMem
  rw [ea, eb]
  simp only []
  split_ifs
  · obtain ⟨n1, r, e, h1, h2⟩ := mergeOtherTreeMem_total nodes a b ha
    exact ⟨(n1, r), e, h1, h2⟩
  · obtain ⟨n1, r, e, h1, h2⟩ := mergeOtherTreeMem_total nodes b a hb
    exact ⟨(n1, r), e, h1, h2⟩

theorem slotsValid_of_getElem? (n : Nat) (l : List (Option TreeObj)) (i : Nat) (t : TreeObj)
    (hl : SlotsValid n l) (h : l[i]? = some (some t)) : t.Valid n :=
  hl t (List.mem_iff_getElem?.mpr ⟨i, h⟩)

theorem slotsValid_set (n : Nat) (l : List (Option TreeObj)) (i : Nat) (t : TreeObj)
    (hl : SlotsValid n l) (ht : t.Valid n) : SlotsValid n (l.set i (some t)) := by
  intro u hu
  rcases List.mem_or_eq_of_mem_set hu with h | h
  · exact hl u h
  · simp only [Option.some.injEq] at h
    rw [h]; exact ht

theorem writeObjSlot_total (v : List (Option TreeObj)) (i : Nat) (x : Option TreeObj)
    (h : i < v.length) : writeObjSlot v i x = some (v.set i x) := by
  unfold writeObjSlot
  rw [if_pos h]

theorem firstLoopBodyMem_total (n len : Nat) (other_trees : List (Option TreeObj))
    (hother : SlotsValid n other_trees) (hlen : other_trees.length ≤ len)
    (i : Nat) (s : MemMergeState) (hi : i < other_trees.length) (hs : s.Inv n len) :
    ∃ s1, firstLoopBodyMem other_trees i s = some s1 ∧ s1.Inv n len := by
  obtain ⟨hn, ht, ho, hv, htr⟩ := hs
  have hio : i < s.our_trees.length := by omega
  have hit : i < s.trees_.length := by omega
  have eo : s.our_trees[i]? = some s.our_trees[i] := List.getElem?_eq_getElem hio
  have ex : other_trees[i]? = some other_trees[i] := List.getElem?_eq_getElem hi
  have hmerge : ∀ a b : TreeObj, a.Valid n → b.Valid n →
      ∃ p, MergeBinomialTreesMem s.nodes a b = some p ∧ p.1.length = n ∧ p.2.Valid n := by
    intro a b ha hb
    rw [← hn] at ha hb ⊢
    exact mergeBinomialTreesMem_total s.nodes a b ha hb
  unfold firstLoopBodyMem
  rw [eo, ex]
  simp only []
  rcases hcur : s.our_trees[i] with _ | a <;> rcases hoth : other_trees[i] with _ | b <;>
    rcases htf : s.transfer with _ | c <;> simp only []
  · refine ⟨_, by rw [writeObjSlot_total _ _ _ hit]; rfl, ?_⟩
    exact ⟨hn, by simp [ht], ho, hv, by simp [htf]⟩
  · have hc := htr c htf
    refine ⟨_, by rw [writeObjSlot_total _ _ _ hit]; rfl, ?_⟩
    exact ⟨hn, by simp [ht], ho, hv, by simp⟩
  · refine ⟨_, by rw [writeObjSlot_total _ _ _ hit]; rfl, ?_⟩
    exact ⟨hn, by simp [ht], ho, hv, by simp [htf]⟩
  · have hc := htr c htf
    have hb : b.Valid n := slotsValid_of_getElem? n _ i b hother (by rw [ex, hoth])
    obtain ⟨p, ep, hp1, hp2⟩ := hmerge c b hc hb
    refine ⟨_, by rw [writeObjSlot_total _ _ _ hit, Option.some_bind, ep]; rfl, ?_⟩
    refine ⟨hp1, by simp [ht], ho, hv, ?_⟩
    intro t ht2
    simp only [Option.some.injEq] at ht2
    rw [← ht2]; exact hp2
  · refine ⟨_, by rw [writeObjSlot_total _ _ _ hit]; rfl, ?_⟩
    exact ⟨hn, by simp [ht], ho, hv, by simp [htf]⟩
  · have hc := htr c htf
    have ha : a.Valid n := slotsValid_of_getElem? n _ i a hv (by rw [eo, hcur])
    obtain ⟨p, ep, hp1, hp2⟩ := hmerge c a hc ha
    refine ⟨_, by rw [writeObjSlot_total _ _ _ hit, Option.some_bind, ep]; rfl, ?_⟩
    refine ⟨hp1, by simp [ht], ho, hv, ?_⟩
    intro t ht2
    simp only [Option.some.injEq] at ht2
    rw [← ht2]; exact hp2
  · have ha : a.Valid n := slotsValid_of_getElem? n _ i a hv (by rw [eo, hcur])
    have hb : b.Valid n := slotsValid_of_getElem? n _ i b hother (by rw [ex, hoth])
    obtain ⟨p, ep, hp1, hp2⟩ := hmerge a b ha hb
    refine ⟨_, by rw [ep, Option.some_bind, writeObjSlot_total _ _ _ hit]; rfl, ?_⟩
    refine ⟨hp1, by simp [ht], ho, hv, ?_⟩
    intro t ht2
    simp only [Option.some.injEq] at ht2
    rw [← ht2]; exact hp2
  · have ha : a.Valid n := slotsValid_of_getElem? n _ i a hv (by rw [eo, hcur])
    have hb : b.Valid n := slotsValid_of_getElem? n _ i b hother (by rw [ex, hoth])
    obtain ⟨p, ep, hp1, hp2⟩ := hmerge a b ha hb
    refine ⟨_, by rw [writeObjSlot_total _ _ _ hit, Option.some_bind, ep]; rfl, ?_⟩
    refine ⟨hp1, by simp [ht], by simp [ho], slotsValid_set n _ i _ hv hp2, ?_⟩
    intro t ht2
    simp only [Option.some.injEq] at ht2
    rw [← ht2]; exact hp2

theorem secondLoopBodyMem_total (n len : Nat) (i : Nat) (s : MemMergeState) (hi : i < len)
    (hs : s.Inv n len) : ∃ s1, secondLoopBodyMem i s = some s1 ∧ s1.Inv n len := by
  obtain ⟨hn, ht, ho, hv, htr⟩ := hs
  have hio : i < s.our_trees.length := by omega
  have hit : i < s.trees_.length := by omega
  have eo : s.our_trees[i]? = some s.our_trees[i] := List.getElem?_eq_getElem hio
  unfold secondLoopBodyMem
  rw [eo]
  simp only []
  rcases hcur : s.our_trees[i] with _ | a <;> rcases htf : s.transfer with _ | c <;>
    simp only []
  · exact ⟨s, rfl, hn, ht, ho, hv, htr⟩
  · refine ⟨_, by rw [writeObjSlot_total _ _ _ hit]; rfl, ?_⟩
    exact ⟨hn, by simp [ht], ho, hv, by simp⟩
  · refine ⟨_, by rw [writeObjSlot_total _ _ _ hit]; rfl, ?_⟩
    exact ⟨hn, by simp [ht], ho, hv, by simp [htf]⟩
  · have hc := htr c htf
    have ha : a.Valid n := slotsValid_of_getElem? n _ i a hv (by rw [eo, hcur])
    rw [← hn] at hc ha
    obtain ⟨p, ep, hp1, hp2⟩ := mergeBinomialTreesMem_total s.nodes c a hc ha
    rw [hn] at hp1 hp2
    refine ⟨_, by rw [ep]; rfl, ?_⟩
    refine ⟨hp1, ht, ho, hv, ?_⟩
    intro t ht2
    simp only [Option.some.injEq] at ht2
    rw [← ht2]; exact hp2

theorem mergeLoopsMem_total (nodes : List NodeCell) (our_trees other_trees : List (Option TreeObj))
    (hvo : SlotsValid nodes.length our_trees) (hvx : SlotsValid nodes.length other_trees)
    (hlen : other_trees.length ≤ our_trees.length) :
    ∃ s1 s2, forLoop (firstLoopBodyMem other_trees) other_trees.length 0
        { nodes := nodes, trees_ := List.replicate our_trees.length none,
          our_trees := our_trees, transfer := none } = some s1 ∧
      forLoop secondLoopBodyMem (our_trees.length - other_trees.length)
        other_trees.length s1 = some s2 := by
  have inv0 : MemMergeState.Inv nodes.length our_trees.length
      { nodes := nodes, trees_ := List.replicate our_trees.length none,
        our_trees := our_trees, transfer := none } :=
    ⟨rfl, by simp, rfl, hvo, by simp⟩
  obtain ⟨s1, e1, inv1⟩ := forLoop_total (firstLoopBodyMem other_trees)
    (MemMergeState.Inv nodes.length our_trees.length) other_trees.length
    (fun i s hi hs => firstLoopBodyMem_total _ _ other_trees hvx hlen i s hi hs)
    other_trees.length 0 _ (by omega) inv0
  obtain ⟨s2, e2, _⟩ := forLoop_total secondLoopBodyMem
    (MemMergeState.Inv nodes.length our_trees.length) our_trees.length
    (fun i s hi hs => secondLoopBodyMem_total _ _ i s hi hs)
    (our_trees.length - other_trees.length) other_trees.length s1 (by omega) inv1
  exact ⟨s1, s2, e1, e2⟩

theorem Memory.MergeOtherHeap_total (m : Memory) (self other : Nat)
    (hv : m.ValidFor self other) : ∃ m1, m.MergeOtherHeap self other = some m1 := by
  obtain ⟨recv, oth, er, eo, vr, vo⟩ := hv
  unfold Memory.MergeOtherHeap
  rw [er, eo]
  simp only []
  by_cases h1 : recv.trees_.isEmpty = true
  · rw [if_pos h1]; exact ⟨_, rfl⟩
  rw [if_neg h1]
  by_cases h2 : oth.trees_.isEmpty = true
  · rw [if_pos h2]; exact ⟨_, rfl⟩
  rw [if_neg h2]
  by_cases h3 : oth.trees_.length > recv.trees_.length
  · obtain ⟨s1, s2, e1, e2⟩ := mergeLoopsMem_total m.nodes oth.trees_ recv.trees_ vo vr
      (le_of_lt h3)
    simp only [h3, decide_True, if_true]
    rw [e1, Option.some_bind, e2, Option.some_bind]
    rcases s2.transfer with _ | c
    · exact ⟨_, rfl⟩
    · exact ⟨_, rfl⟩
  · obtain ⟨s1, s2, e1, e2⟩ := mergeLoopsMem_total m.nodes recv.trees_ oth.trees_ vr vo
      (not_lt.mp h3)
    simp only [h3, decide_False, if_false, Bool.false_eq_true]
    rw [e1, Option.some_bind, e2, Option.some_bind]
    rcases s2.transfer with _ | c
    · exact ⟨_, rfl⟩
    · exact ⟨_, rfl⟩

theorem Memory.MergeOtherHeap_writes_receiver_only (m m1 : Memory) (self other : Nat)
    (h : m.MergeOtherHeap self other = some m1) :
    m1.heaps = m.heaps ∨ ∃ obj, m1.heaps = m.heaps.set self obj := by
  unfold Memory.MergeOtherHeap at h
  split at h
  · split_ifs at h with h1 h2
    · simp only [Option.some.injEq] at h
      rw [← h]; exact Or.inr ⟨_, rfl⟩
    · simp only [Option.some.injEq] at h
      rw [← h]; exact Or.inl rfl
    · simp only [Option.bind_eq_some] at h
      obtain ⟨s1, _, s2, _, h⟩ := h
      split at h
      · simp only [Option.some.injEq] at h
        rw [← h]; exact Or.inr ⟨_, rfl⟩
      · simp only [Option.some.injEq] at h
        rw [← h]; exact Or.inr ⟨_, rfl⟩
  · simp at h

theorem validFor_sampleMemory : sampleMemory.ValidFor 0 1 := by
  refine ⟨{ size_ := 1, trees_ := [some { root_ := some 0, rank_ := 0 }] },
    { size_ := 1, trees_ := [some { root_ := some 1, rank_ := 0 }] }, rfl, rfl, ?_, ?_⟩
  · intro t ht
    simp only [List.mem_singleton, Option.some.injEq] at ht
    rw [ht]; exact ⟨0, rfl, by decide⟩
  · intro t ht
    simp only [List.mem_singleton, Option.some.injEq] at ht
    rw [ht]; exact ⟨1, rfl, by decide⟩

/-- Merging a heap object into itself (`other` is the receiver): the object that holds
`1` ends with `size_ = 2`, slot 0 empty, and a rank-1 tree whose root is its own child.
This is why the statement on the operand below is about two distinct objects. -/
theorem Memory.MergeOtherHeap_self_example :
    ({ nodes := [{ value := 1, children_ := [] }],
       heaps := [{ size_ := 1, trees_ := [some { root_ := some 0, rank_ := 0 }] }] }
      : Memory).MergeOtherHeap 0 0
    = some { nodes := [{ value := 1, children_ := [some 0] }],
             heaps := [{ size_ := 2,
                         trees_ := [none, some { root_ := some 0, rank_ := 1 }] }] } :=
  rfl

/-- C12, as stated, fails: after merging the heap object that holds `1` (the operand)
into the heap object that holds `2`, the operand is not empty: it still has `size_ = 1`
and its slot 0 is still occupied by a tree object pointing to the node that holds `1`
(a node that the receiver now points to as well, and that has received the node holding
`2` as a child). -/
theorem C12_operand_emptied_counterexample :
    sampleMemory.MergeOtherHeap 0 1
      = some { nodes := [{ value := 2, children_ := [] },
                         { value := 1, children_ := [some 0] }],
               heaps := [{ size_ := 2,
                           trees_ := [none, some { root_ := some 1, rank_ := 1 }] },
                         { size_ := 1,
                           trees_ := [some { root_ := some 1, rank_ := 0 }] }] } ∧
    ∃ m1 oth t, sampleMemory.MergeOtherHeap 0 1 = some m1 ∧ m1.heaps[1]? = some oth ∧
      oth.size_ ≠ 0 ∧ oth.trees_[0]? = some (some t) :=
  ⟨rfl, _, _, _, rfl, rfl, by decide, rfl⟩

/-- C12, amended: when `other` is a heap object distinct from the receiver (and the trees
of both have valid root pointers), `self.MergeOtherHeap(other)` completes and does not
empty the operand: the object `other` has the same `size_` and the same `trees_` (the
same occupied slots, holding the same root pointers and `rank_` fields) as before the
call.  Nothing is said about the nodes those pointers lead to: they are shared with the
receiver afterwards. -/
theorem C12_operand_object_unchanged (m : Memory) (self other : Nat) (hne : self ≠ other)
    (hv : m.ValidFor self other) :
    ∃ m1 oth, m.MergeOtherHeap self other = some m1 ∧
      m.heaps[other]? = some oth ∧ m1.heaps[other]? = some oth := by
  obtain ⟨m1, e1⟩ := Memory.MergeOtherHeap_total m self other hv
  obtain ⟨_, oth, _, eo, _, _⟩ := hv
  refine ⟨m1, oth, e1, eo, ?_⟩
  rcases Memory.MergeOtherHeap_writes_receiver_only m m1 self other e1 with h | ⟨obj, h⟩
  · rw [h]; exact eo
  · rw [h, List.getElem?_set_ne hne]; exact eo

/-- Witness for C12: the two heap objects of `sampleMemory`. -/
theorem C12_operand_object_unchanged_witness :
    (0 : Nat) ≠ 1 ∧ sampleMemory.ValidFor 0 1 ∧
    ∃ m1 oth, sampleMemory.MergeOtherHeap 0 1 = some m1 ∧
      sampleMemory.heaps[1]? = some oth ∧ m1.heaps[1]? = some oth :=
  ⟨by decide, validFor_sampleMemory,
    C12_operand_object_unchanged sampleMemory 0 1 (by decide) validFor_sampleMemory⟩

end BinomialHeapCpp
